import Mathlib

/-!
Verification of the True View Progress video tracking engine.

The definitions below are a shallow embedding of the TypeScript class
`VideoProgressTracker` (src/lib/videoProgressTracker.ts, re-exported through
src/hooks/use-video-progress.ts).  Playback positions and durations are
modelled as rationals; `localStorage` is modelled as an optional persisted
record carried inside the state; the optional `onProgressUpdate` callback is
modelled by recording every emitted snapshot in a list (most recent first).
`JSON.parse` of an import payload is abstracted as an `Option ImportDoc`
(`none` = the text failed to parse).  Wall-clock fields (`updatedAt`,
`exportedAt`) carry no tracked information and are omitted.

The source's `mergeIntervals` method is not pure: `[...intervals]` copies
the array but not the interval objects, and `lastMerged.end = Math.max(...)`
mutates objects shared with `this.watchedIntervals`.  A call therefore has
both a value (the merged list) and a state effect (the stored array keeps
its length and order, but every interval that served as a block accumulator
has its `end` widened to the block maximum).  The value is modelled by
`mergeIntervals`, the state effect by `mergeMutate`, and the operations that
call the method on the stored array (`calculateProgress` via
`calculateUniqueWatchedTime`, and the `getProgressData` call inside
`saveProgress`) apply both.
-/

namespace TrueView

/-- A watched interval `{start, end}` as in the source. -/
structure WatchedInterval where
  start : ℚ
  «end» : ℚ
deriving DecidableEq

/-- The comparator `(a, b) => a.start - b.start` used by `mergeIntervals`:
sort ascending by `start`. -/
def startLE (a b : WatchedInterval) : Prop := a.start ≤ b.start

instance : DecidableRel startLE := fun a b => inferInstanceAs (Decidable (a.start ≤ b.start))

instance : IsTotal WatchedInterval startLE := ⟨fun a b => le_total a.start b.start⟩

instance : IsTrans WatchedInterval startLE := ⟨fun _ _ _ h h' => le_trans h h'⟩

/-- `[...intervals].sort((a, b) => a.start - b.start)`: a stable sort by
`start` (JavaScript `Array.prototype.sort` is stable, as is insertion sort). -/
def sortByStart (l : List WatchedInterval) : List WatchedInterval :=
  l.insertionSort startLE

/-- The merge pass of `mergeIntervals`: `acc` is the interval currently being
grown (the trailing element of the `merged` array in the source); an incoming
interval whose `start` lies at or before `acc.end` extends it, any other
interval closes it. -/
def mergeLoop (acc : WatchedInterval) : List WatchedInterval → List WatchedInterval
  | [] => [acc]
  | c :: rest =>
    if c.start ≤ acc.«end» then
      mergeLoop ⟨acc.start, max acc.«end» c.«end»⟩ rest
    else
      acc :: mergeLoop c rest

/-- The return value of `mergeIntervals`: sort by `start`, then coalesce
every interval that starts at or before the end of the interval being
grown.  The source method additionally mutates its input's interval objects
in place; that state effect is modelled separately by `mergeMutate`. -/
def mergeIntervals (intervals : List WatchedInterval) : List WatchedInterval :=
  match sortByStart intervals with
  | [] => []
  | h :: t => mergeLoop h t

/-- A point `x` is covered by a list of intervals when some member contains
it; the union of points of a list is its `covers` predicate. -/
def covers (x : ℚ) (l : List WatchedInterval) : Prop :=
  ∃ i ∈ l, i.start ≤ x ∧ x ≤ i.«end»

instance (x : ℚ) (l : List WatchedInterval) : Decidable (covers x l) :=
  inferInstanceAs (Decidable (∃ i ∈ l, _ ∧ _))

/-- Adjacent intervals leave a positive gap: the previous `end` is strictly
below the next `start` (no overlapping and no touching). -/
def Gapped (l : List WatchedInterval) : Prop :=
  l.Chain' fun a b => a.«end» < b.start

/-- Sorted ascending by `start`. -/
def SortedStarts (l : List WatchedInterval) : Prop :=
  l.Sorted startLE

/-- The spec's normal form: sorted ascending by `start`, pairwise
non-overlapping and non-touching. -/
def Normalized (l : List WatchedInterval) : Prop :=
  SortedStarts l ∧ Gapped l

instance (l : List WatchedInterval) : Decidable (SortedStarts l) :=
  inferInstanceAs (Decidable (List.Pairwise startLE l))

instance (l : List WatchedInterval) : Decidable (Gapped l) :=
  inferInstanceAs (Decidable (List.Chain' _ l))

instance (l : List WatchedInterval) : Decidable (Normalized l) :=
  inferInstanceAs (Decidable (_ ∧ _))

/-- `merged.reduce((total, i) => total + (i.end - i.start), 0)`. -/
def sumLen (l : List WatchedInterval) : ℚ :=
  l.foldl (fun total i => total + (i.«end» - i.start)) 0

/-- The sort comparator lifted to position-tagged intervals; the tag models
the object identity of an entry of `this.watchedIntervals`. -/
def taggedLE (a b : ℕ × WatchedInterval) : Prop := a.2.start ≤ b.2.start

instance : DecidableRel taggedLE :=
  fun a b => inferInstanceAs (Decidable (a.2.start ≤ b.2.start))

/-- The stable sort of the tagged intervals, mirroring the sort of the
copied array of shared object references. -/
def sortTagged (L : List (ℕ × WatchedInterval)) : List (ℕ × WatchedInterval) :=
  L.insertionSort taggedLE

/-- The merge pass over tagged intervals: the accumulator keeps the tag of
the object whose `end` field the source widens in place
(`lastMerged.end = Math.max(lastMerged.end, current.end)`). -/
def mergeLoopIdx (acc : ℕ × WatchedInterval) :
    List (ℕ × WatchedInterval) → List (ℕ × WatchedInterval)
  | [] => [acc]
  | c :: rest =>
    if c.2.start ≤ acc.2.«end» then
      mergeLoopIdx (acc.1, ⟨acc.2.start, max acc.2.«end» c.2.«end»⟩) rest
    else
      acc :: mergeLoopIdx c rest

/-- One full run of the source's merge over the tagged input: the output
pairs each block accumulator's position with its final (widened) value. -/
def mergePass (l : List WatchedInterval) : List (ℕ × WatchedInterval) :=
  match sortTagged l.enum with
  | [] => []
  | h :: t => mergeLoopIdx h t

/-- The state of the input array's objects after a `mergeIntervals` call:
same objects in the same order; an object that served as a block
accumulator has been widened in place to the block's merged interval, all
others are untouched. -/
def mergeMutate (l : List WatchedInterval) : List WatchedInterval :=
  l.enum.map fun p =>
    (((mergePass l).find? (fun q => q.1 == p.1)).map Prod.snd).getD p.2

/-- The record written to `localStorage` under `videoProgress-<videoId>`:
`{ intervals, lastPos }`. -/
structure SavedProgress where
  intervals : List WatchedInterval
  lastPos : ℚ
deriving DecidableEq

/-- The snapshot passed to the `onProgressUpdate` callback and returned by
`getProgressData` (minus the wall-clock `updatedAt`). -/
structure VideoProgressData where
  intervals : List WatchedInterval
  lastPosition : ℚ
  totalProgress : ℚ
  videoId : String
deriving DecidableEq

/-- The payload produced by `exportProgressData` (minus `exportedAt`). -/
structure ExportData where
  videoId : String
  intervals : List WatchedInterval
  lastPosition : ℚ
  totalProgress : ℚ
deriving DecidableEq

/-- A successfully parsed import payload.  `intervals`/`lastPosition` are
optional: the source falls back with `data.intervals || []` and
`data.lastPosition || 0`. -/
structure ImportDoc where
  videoId : String
  intervals : Option (List WatchedInterval)
  lastPosition : Option ℚ
deriving DecidableEq

/-- The mutable fields of a `VideoProgressTracker`, together with the
modelled persistence cell and the list of emitted callback snapshots. -/
structure TrackerState where
  videoId : String
  watchedIntervals : List WatchedInterval
  lastPosition : ℚ
  duration : ℚ
  trackingStartTime : ℚ
  isTracking : Bool
  totalProgress : ℚ
  storage : Option SavedProgress
  notifications : List VideoProgressData
deriving DecidableEq

/-- `calculateUniqueWatchedTime`: merge, then sum the lengths. -/
def calculateUniqueWatchedTime (s : TrackerState) : ℚ :=
  sumLen (mergeIntervals s.watchedIntervals)

/-- `calculateProgress`: recompute `totalProgress` only when
`duration > 0`.  The `calculateUniqueWatchedTime` call runs the merge over
the stored array, so it also widens the stored interval objects in place;
with a non-positive duration no merge runs and nothing changes. -/
def calculateProgress (s : TrackerState) : TrackerState :=
  if 0 < s.duration then
    { s with
      watchedIntervals := mergeMutate s.watchedIntervals
      totalProgress := min (calculateUniqueWatchedTime s / s.duration * 100) 100 }
  else s

/-- The value of a `getProgressData` snapshot, with the intervals
normalized through `getMergedIntervals`.  In the source that
`getMergedIntervals` call also widens the stored interval objects in place;
the modelled operations that invoke it on tracker state (`saveProgress`)
apply that effect to `watchedIntervals` themselves (for `reset` the list is
already empty, so the effect is vacuous there). -/
def getProgressData (s : TrackerState) : VideoProgressData :=
  { intervals := mergeIntervals s.watchedIntervals
    lastPosition := s.lastPosition
    totalProgress := s.totalProgress
    videoId := s.videoId }

/-- `saveProgress`: `JSON.stringify` the current `{intervals, lastPos}`
into storage first, then invoke the update callback with the
`getProgressData` snapshot — whose merge widens the stored interval objects
in place, after the persistence write. -/
def saveProgress (s : TrackerState) : TrackerState :=
  { s with
    storage := some ⟨s.watchedIntervals, s.lastPosition⟩
    watchedIntervals := mergeMutate s.watchedIntervals
    notifications := getProgressData s :: s.notifications }

/-- `setDuration`. -/
def setDuration (s : TrackerState) (duration : ℚ) : TrackerState :=
  calculateProgress { s with duration := duration }

/-- `startTracking`: open a session anchored at `currentPosition` unless one
is already active. -/
def startTracking (s : TrackerState) (currentPosition : ℚ) : TrackerState :=
  if s.isTracking then s
  else { s with trackingStartTime := currentPosition, isTracking := true }

/-- `stopTracking`: commit `[min(anchor, p), max(anchor, p)]` when a session
is active, `p` differs from the anchor and the distance is at least one
second; the `isTracking = false` assignment sits inside the outer guard. -/
def stopTracking (s : TrackerState) (currentPosition : ℚ) : TrackerState :=
  if s.isTracking = true ∧ s.trackingStartTime ≠ currentPosition then
    if 1 ≤ |s.trackingStartTime - currentPosition| then
      let newInterval : WatchedInterval :=
        ⟨min s.trackingStartTime currentPosition, max s.trackingStartTime currentPosition⟩
      let s₁ := { s with
        watchedIntervals := mergeIntervals (s.watchedIntervals ++ [newInterval])
        lastPosition := currentPosition }
      let s₂ := saveProgress (calculateProgress s₁)
      { s₂ with isTracking := false }
    else
      { s with isTracking := false }
  else s

/-- `updatePosition`: move `lastPosition` and persist, touching nothing
else. -/
def updatePosition (s : TrackerState) (currentPosition : ℚ) : TrackerState :=
  saveProgress { s with lastPosition := currentPosition }

/-- `handleSeek`: force-close an active session against the pre-seek
`lastPosition`, then move `lastPosition` to the destination; if the session
survived (`stopTracking` is a no-op when the anchor equals `lastPosition`),
re-anchor it at the destination. -/
def handleSeek (s : TrackerState) (currentPosition : ℚ) : TrackerState :=
  let s₁ := if s.isTracking = true then stopTracking s s.lastPosition else s
  let s₂ := { s₁ with lastPosition := currentPosition }
  if s₂.isTracking = true then { s₂ with trackingStartTime := currentPosition } else s₂

/-- `reset`: clear everything, delete the persisted record, notify. -/
def reset (s : TrackerState) : TrackerState :=
  let s₁ := { s with
    watchedIntervals := []
    lastPosition := 0
    totalProgress := 0
    storage := none }
  { s₁ with notifications := getProgressData s₁ :: s₁.notifications }

/-- `exportProgressData`: serialize the raw state. -/
def exportProgressData (s : TrackerState) : ExportData :=
  { videoId := s.videoId
    intervals := s.watchedIntervals
    lastPosition := s.lastPosition
    totalProgress := s.totalProgress }

/-- `importProgressData`: `parsed = none` models a `JSON.parse` failure
(caught, returns `false`); a parsed document is accepted exactly when its
`videoId` matches, in which case intervals and last position are replaced,
progress is recomputed and the state is persisted. -/
def importProgressData (s : TrackerState) (parsed : Option ImportDoc) :
    Bool × TrackerState :=
  match parsed with
  | none => (false, s)
  | some data =>
    if data.videoId = s.videoId then
      let s₁ := { s with
        watchedIntervals := data.intervals.getD []
        lastPosition := data.lastPosition.getD 0 }
      (true, saveProgress (calculateProgress s₁))
    else (false, s)

/-- `loadSavedProgress`: adopt the persisted record when present (a corrupt
record is modelled as an absent one, as both resolve to the defaults). -/
def loadSavedProgress (s : TrackerState) : TrackerState :=
  match s.storage with
  | none => s
  | some data =>
    calculateProgress { s with
      watchedIntervals := data.intervals
      lastPosition := data.lastPos }

/-- The constructor: fresh fields, then `loadSavedProgress`. -/
def mkTracker (videoId : String) (duration : ℚ) (storage : Option SavedProgress) :
    TrackerState :=
  loadSavedProgress
    { videoId := videoId
      watchedIntervals := []
      lastPosition := 0
      duration := duration
      trackingStartTime := 0
      isTracking := false
      totalProgress := 0
      storage := storage
      notifications := [] }

/-- Every tracker mutation, for reachability: the playback operations plus
`setDuration`, `reset` and `importProgressData`. -/
inductive Op where
  | startT (p : ℚ)
  | stopT (p : ℚ)
  | seek (p : ℚ)
  | updatePos (p : ℚ)
  | setDur (d : ℚ)
  | resetOp
  | importOp (parsed : Option ImportDoc)

/-- Apply one operation. -/
def applyOp (s : TrackerState) : Op → TrackerState
  | .startT p => startTracking s p
  | .stopT p => stopTracking s p
  | .seek p => handleSeek s p
  | .updatePos p => updatePosition s p
  | .setDur d => setDuration s d
  | .resetOp => reset s
  | .importOp parsed => (importProgressData s parsed).2

/-- The operations driven purely by playback events (the ones through which
intervals are committed); excludes duration changes, reset and import. -/
def isPlaybackOp : Op → Bool
  | .startT _ => true
  | .stopT _ => true
  | .seek _ => true
  | .updatePos _ => true
  | _ => false

/-- Run a sequence of operations, first element first. -/
def runOps (s : TrackerState) : List Op → TrackerState
  | [] => s
  | op :: rest => runOps (applyOp s op) rest

/-- States reachable from a freshly constructed tracker (over any persisted
content) by any sequence of operations. -/
inductive Reachable : TrackerState → Prop
  | init (videoId : String) (duration : ℚ) (storage : Option SavedProgress) :
      Reachable (mkTracker videoId duration storage)
  | step {s : TrackerState} (h : Reachable s) (op : Op) : Reachable (applyOp s op)

end TrueView

namespace TrueView

/-- All intervals in the list satisfy the data-model invariant
`start <= end`. -/
def AllWF (l : List WatchedInterval) : Prop :=
  ∀ i ∈ l, i.start ≤ i.«end»

theorem sumLen_eq_sum (l : List WatchedInterval) :
    sumLen l = (l.map fun i => i.«end» - i.start).sum := by
  have key : ∀ (l : List WatchedInterval) (c : ℚ),
      l.foldl (fun total i => total + (i.«end» - i.start)) c
        = c + (l.map fun i => i.«end» - i.start).sum := by
    intro l
    induction l with
    | nil => intro c; simp
    | cons a t ih => intro c; simp [ih]; ring
  simpa using key l 0

theorem sumLen_cons (a : WatchedInterval) (l : List WatchedInterval) :
    sumLen (a :: l) = (a.«end» - a.start) + sumLen l := by
  simp [sumLen_eq_sum]

theorem sumLen_nonneg {l : List WatchedInterval} (h : AllWF l) : 0 ≤ sumLen l := by
  induction l with
  | nil => simp [sumLen]
  | cons a t ih =>
    have ha := h a (by simp)
    have ht : AllWF t := fun i hi => h i (by simp [hi])
    have := ih ht
    rw [sumLen_cons]
    have : 0 ≤ a.«end» - a.start := by linarith
    linarith [ih ht]

theorem mergeLoop_head (acc : WatchedInterval) (rest : List WatchedInterval) :
    ∃ e tail, mergeLoop acc rest = ⟨acc.start, e⟩ :: tail ∧ acc.«end» ≤ e := by
  induction rest generalizing acc with
  | nil => exact ⟨acc.«end», [], rfl, le_refl _⟩
  | cons c t ih =>
    by_cases h : c.start ≤ acc.«end»
    · obtain ⟨e, tail, heq, hle⟩ := ih ⟨acc.start, max acc.«end» c.«end»⟩
      exact ⟨e, tail, by simp [mergeLoop, h, heq],
        le_trans (le_max_left _ _) hle⟩
    · exact ⟨acc.«end», mergeLoop c t, by simp [mergeLoop, h], le_refl _⟩

theorem mergeLoop_gapped (acc : WatchedInterval) (rest : List WatchedInterval) :
    Gapped (mergeLoop acc rest) := by
  induction rest generalizing acc with
  | nil => simp [mergeLoop, Gapped]
  | cons c t ih =>
    by_cases h : c.start ≤ acc.«end»
    · simpa [mergeLoop, h] using ih ⟨acc.start, max acc.«end» c.«end»⟩
    · obtain ⟨e, tail, heq, _⟩ := mergeLoop_head c t
      have hgap : acc.«end» < c.start := lt_of_not_le h
      have := ih c
      rw [Gapped] at this ⊢
      simp only [mergeLoop, h, if_neg, ite_false]
      rw [heq] at this ⊢
      exact List.Chain'.cons hgap this

theorem mergeLoop_start_mem (rest : List WatchedInterval) :
    ∀ acc : WatchedInterval, ∀ o ∈ mergeLoop acc rest,
      ∃ j ∈ acc :: rest, o.start = j.start := by
  induction rest with
  | nil =>
    intro acc o ho
    rw [mergeLoop, List.mem_singleton] at ho
    exact ⟨acc, by simp, by rw [ho]⟩
  | cons c t ih =>
    intro acc o ho
    by_cases h : c.start ≤ acc.«end»
    · rw [mergeLoop, if_pos h] at ho
      obtain ⟨j, hj, hs⟩ := ih ⟨acc.start, max acc.«end» c.«end»⟩ o ho
      rcases List.mem_cons.mp hj with hja | hj
      · refine ⟨acc, by simp, ?_⟩
        rw [hs, hja]
      · exact ⟨j, by simp [hj], hs⟩
    · rw [mergeLoop, if_neg h, List.mem_cons] at ho
      rcases ho with ho | ho
      · exact ⟨acc, by simp, by rw [ho]⟩
      · obtain ⟨j, hj, hs⟩ := ih c o ho
        exact ⟨j, List.mem_cons_of_mem _ hj, hs⟩

theorem mergeLoop_sortedStarts (rest : List WatchedInterval) :
    ∀ acc : WatchedInterval,
      SortedStarts (acc :: rest) → SortedStarts (mergeLoop acc rest) := by
  induction rest with
  | nil =>
    intro acc h
    simp [mergeLoop, SortedStarts]
  | cons c t ih =>
    intro acc h
    rw [SortedStarts, List.sorted_cons] at h
    obtain ⟨hacc, hct⟩ := h
    by_cases hm : c.start ≤ acc.«end»
    · rw [mergeLoop, if_pos hm]
      apply ih
      rw [SortedStarts, List.sorted_cons]
      refine ⟨fun b hb => ?_, hct.of_cons⟩
      exact hacc b (List.mem_cons_of_mem _ hb)
    · rw [mergeLoop, if_neg hm, SortedStarts, List.sorted_cons]
      constructor
      · intro b hb
        obtain ⟨j, hj, hs⟩ := mergeLoop_start_mem t c b hb
        have hj' : startLE acc j := hacc j hj
        rw [startLE] at hj' ⊢
        rw [hs]
        exact hj'
      · exact ih c hct

theorem mergeLoop_WF (rest : List WatchedInterval) :
    ∀ acc : WatchedInterval, AllWF (acc :: rest) → AllWF (mergeLoop acc rest) := by
  induction rest with
  | nil =>
    intro acc h i hi
    rw [mergeLoop, List.mem_singleton] at hi
    rw [hi]
    exact h acc (by simp)
  | cons c t ih =>
    intro acc h
    have hacc : acc.start ≤ acc.«end» := h acc (by simp)
    have hc : c.start ≤ c.«end» := h c (by simp)
    by_cases hm : c.start ≤ acc.«end»
    · rw [mergeLoop, if_pos hm]
      apply ih
      intro i hi
      rcases List.mem_cons.mp hi with hi | hi
      · rw [hi]
        exact le_trans hacc (le_max_left _ _)
      · exact h i (by simp [hi])
    · rw [mergeLoop, if_neg hm]
      intro i hi
      rcases List.mem_cons.mp hi with hi | hi
      · rw [hi]; exact hacc
      · exact ih c (fun j hj => h j (List.mem_cons_of_mem _ hj)) i hi

theorem covers_cons (x : ℚ) (a : WatchedInterval) (l : List WatchedInterval) :
    covers x (a :: l) ↔ (a.start ≤ x ∧ x ≤ a.«end») ∨ covers x l := by
  rw [covers, covers]
  constructor
  · rintro ⟨i, hi, hx⟩
    rcases List.mem_cons.mp hi with hi | hi
    · rw [hi] at hx
      exact Or.inl hx
    · exact Or.inr ⟨i, hi, hx⟩
  · rintro (hx | ⟨i, hi, hx⟩)
    · exact ⟨a, by simp, hx⟩
    · exact ⟨i, List.mem_cons_of_mem _ hi, hx⟩

theorem mergeLoop_covers (rest : List WatchedInterval) :
    ∀ acc : WatchedInterval, SortedStarts (acc :: rest) →
      ∀ x : ℚ, covers x (mergeLoop acc rest) ↔ covers x (acc :: rest) := by
  induction rest with
  | nil => intro acc _ x; rw [mergeLoop]
  | cons c t ih =>
    intro acc h x
    rw [SortedStarts, List.sorted_cons] at h
    obtain ⟨hacc, hct⟩ := h
    have hs₂ : acc.start ≤ c.start := hacc c (by simp)
    by_cases hm : c.start ≤ acc.«end»
    · rw [mergeLoop, if_pos hm]
      have hsorted : SortedStarts ((⟨acc.start, max acc.«end» c.«end»⟩ : WatchedInterval) :: t) := by
        rw [SortedStarts, List.sorted_cons]
        exact ⟨fun b hb => hacc b (List.mem_cons_of_mem _ hb), hct.of_cons⟩
      rw [ih _ hsorted x, covers_cons, covers_cons, covers_cons]
      constructor
      · rintro (⟨h1, h2⟩ | hrest)
        · simp only at h1 h2
          rcases le_or_lt x acc.«end» with hle | hlt
          · exact Or.inl ⟨h1, hle⟩
          · have hxc : x ≤ c.«end» := by
              rcases max_cases acc.«end» c.«end» with ⟨hmax, _⟩ | ⟨hmax, _⟩
              · rw [hmax] at h2; exact absurd h2 (not_le.mpr hlt)
              · rw [hmax] at h2; exact h2
            exact Or.inr (Or.inl ⟨le_of_lt (lt_of_le_of_lt hm hlt), hxc⟩)
        · exact Or.inr (Or.inr hrest)
      · rintro (⟨h1, h2⟩ | ⟨h1, h2⟩ | hrest)
        · exact Or.inl ⟨h1, le_trans h2 (le_max_left _ _)⟩
        · exact Or.inl ⟨le_trans hs₂ h1, le_trans h2 (le_max_right _ _)⟩
        · exact Or.inr hrest
    · rw [mergeLoop, if_neg hm, covers_cons, covers_cons]
      rw [ih c hct x]

theorem mergeLoop_of_gapped (rest : List WatchedInterval) :
    ∀ acc : WatchedInterval, Gapped (acc :: rest) → mergeLoop acc rest = acc :: rest := by
  induction rest with
  | nil => intro acc _; rw [mergeLoop]
  | cons c t ih =>
    intro acc h
    rw [Gapped, List.chain'_cons] at h
    obtain ⟨hgap, hct⟩ := h
    rw [mergeLoop, if_neg (not_le.mpr hgap), ih c hct]

theorem sortByStart_sorted (l : List WatchedInterval) : SortedStarts (sortByStart l) :=
  List.sorted_insertionSort startLE l

theorem sortByStart_perm (l : List WatchedInterval) : (sortByStart l).Perm l :=
  List.perm_insertionSort startLE l

theorem covers_of_perm {l l' : List WatchedInterval} (h : l.Perm l') (x : ℚ) :
    covers x l ↔ covers x l' := by
  rw [covers, covers]
  constructor
  · rintro ⟨i, hi, hx⟩
    exact ⟨i, h.mem_iff.mp hi, hx⟩
  · rintro ⟨i, hi, hx⟩
    exact ⟨i, h.mem_iff.mpr hi, hx⟩

theorem mergeIntervals_nil : mergeIntervals [] = [] := rfl

theorem mergeIntervals_gapped (l : List WatchedInterval) : Gapped (mergeIntervals l) := by
  rw [mergeIntervals]
  cases h : sortByStart l with
  | nil => simp [Gapped]
  | cons a t => exact mergeLoop_gapped a t

theorem mergeIntervals_sortedStarts (l : List WatchedInterval) :
    SortedStarts (mergeIntervals l) := by
  rw [mergeIntervals]
  cases h : sortByStart l with
  | nil => simp [SortedStarts]
  | cons a t =>
    apply mergeLoop_sortedStarts
    rw [← h]
    exact sortByStart_sorted l

theorem mergeIntervals_covers (l : List WatchedInterval) (x : ℚ) :
    covers x (mergeIntervals l) ↔ covers x l := by
  rw [mergeIntervals]
  cases h : sortByStart l with
  | nil =>
    have : l = [] := by
      have hp := sortByStart_perm l
      rw [h] at hp
      exact hp.symm.eq_nil
    rw [this]
  | cons a t =>
    have hsorted : SortedStarts (a :: t) := by
      rw [← h]; exact sortByStart_sorted l
    rw [mergeLoop_covers t a hsorted x]
    have hp := sortByStart_perm l
    rw [h] at hp
    exact covers_of_perm hp x

theorem mergeIntervals_WF {l : List WatchedInterval} (h : AllWF l) :
    AllWF (mergeIntervals l) := by
  rw [mergeIntervals]
  cases hs : sortByStart l with
  | nil => intro i hi; simp at hi
  | cons a t =>
    apply mergeLoop_WF
    intro i hi
    apply h
    have hp := sortByStart_perm l
    rw [hs] at hp
    exact hp.mem_iff.mp hi

theorem mergeIntervals_idem (l : List WatchedInterval) :
    mergeIntervals (mergeIntervals l) = mergeIntervals l := by
  have hsorted : SortedStarts (mergeIntervals l) := mergeIntervals_sortedStarts l
  have hgap : Gapped (mergeIntervals l) := mergeIntervals_gapped l
  have hfix : sortByStart (mergeIntervals l) = mergeIntervals l := by
    rw [sortByStart]
    exact List.Sorted.insertionSort_eq hsorted
  rw [mergeIntervals, hfix]
  cases h : mergeIntervals l with
  | nil => rfl
  | cons a t =>
    rw [h] at hgap
    exact mergeLoop_of_gapped t a hgap

theorem gapped_head_lt {a : WatchedInterval} :
    ∀ {l : List WatchedInterval}, Gapped (a :: l) → AllWF l →
      ∀ i ∈ l, a.«end» < i.start := by
  intro l
  induction l generalizing a with
  | nil => intro _ _ i hi; simp at hi
  | cons c t ih =>
    intro hg hWF i hi
    rw [Gapped, List.chain'_cons] at hg
    obtain ⟨hac, hct⟩ := hg
    rcases List.mem_cons.mp hi with hi | hi
    · rw [hi]; exact hac
    · have hc : c.start ≤ c.«end» := hWF c (by simp)
      have := ih hct (fun j hj => hWF j (List.mem_cons_of_mem _ hj)) i hi
      linarith

theorem gapped_head_start_le {b : WatchedInterval} {l : List WatchedInterval}
    (hg : Gapped (b :: l)) (hWF : AllWF (b :: l)) :
    ∀ j ∈ b :: l, b.start ≤ j.start := by
  intro j hj
  rcases List.mem_cons.mp hj with hj | hj
  · rw [hj]
  · have hb : b.start ≤ b.«end» := hWF b (by simp)
    have := gapped_head_lt hg (fun i hi => hWF i (List.mem_cons_of_mem _ hi)) j hj
    linarith

theorem not_covers_of_start_gt {x : ℚ} {l : List WatchedInterval}
    (h : ∀ i ∈ l, x < i.start) : ¬ covers x l := by
  rintro ⟨i, hi, hx1, _⟩
  exact absurd hx1 (not_le.mpr (h i hi))

theorem gapped_tail {a : WatchedInterval} {l : List WatchedInterval}
    (h : Gapped (a :: l)) : Gapped l := by
  rw [Gapped] at h ⊢
  exact h.tail

theorem sumLen_le_of_within :
    ∀ (l : List WatchedInterval) (lo hi : ℚ), Gapped l → AllWF l →
      (∀ i ∈ l, lo ≤ i.start) → (∀ i ∈ l, i.«end» ≤ hi) → lo ≤ hi →
      sumLen l ≤ hi - lo := by
  intro l
  induction l with
  | nil => intro lo hi _ _ _ _ h; simp [sumLen]; linarith
  | cons a t ih =>
    intro lo hi hg hWF hlo hhi hlohi
    rw [sumLen_cons]
    have ha : a.start ≤ a.«end» := hWF a (by simp)
    have hahi : a.«end» ≤ hi := hhi a (by simp)
    have halo : lo ≤ a.start := hlo a (by simp)
    have hWFt : AllWF t := fun i hi => hWF i (List.mem_cons_of_mem _ hi)
    have ht : sumLen t ≤ hi - a.«end» := by
      apply ih a.«end» hi (gapped_tail hg) hWFt
      · intro i hi
        exact le_of_lt (gapped_head_lt hg hWFt i hi)
      · intro i hi
        exact hhi i (List.mem_cons_of_mem _ hi)
      · exact hahi
    linarith

theorem fit_in_gapped {a : WatchedInterval} :
    ∀ {l : List WatchedInterval}, Gapped l → AllWF l → a.start ≤ a.«end» →
      (∀ x : ℚ, a.start ≤ x → x ≤ a.«end» → covers x l) →
      ∃ b ∈ l, b.start ≤ a.start ∧ a.«end» ≤ b.«end» := by
  intro l
  induction l generalizing a with
  | nil =>
    intro _ _ haWF hcov
    exact absurd (hcov a.start (le_refl _) haWF) (not_covers_of_start_gt (by simp))
  | cons b t ih =>
    intro hg hWF haWF hcov
    have hWFt : AllWF t := fun i hi => hWF i (List.mem_cons_of_mem _ hi)
    have hbWF : b.start ≤ b.«end» := hWF b (by simp)
    rcases (covers_cons a.start b t).mp (hcov a.start (le_refl _) haWF) with
      ⟨hb1, hb2⟩ | ⟨j, hj, hj1, _⟩
    · -- the left endpoint of `a` lies inside `b`; show all of `a` does
      refine ⟨b, by simp, hb1, ?_⟩
      by_contra hlt
      push_neg at hlt
      cases t with
      | nil =>
        set x : ℚ := (b.«end» + a.«end») / 2 with hx
        have hx1 : b.«end» < x := by rw [hx]; linarith
        have hx2 : x < a.«end» := by rw [hx]; linarith
        have hcx := hcov x (by linarith) (le_of_lt hx2)
        rcases (covers_cons x b []).mp hcx with ⟨_, h2⟩ | hnil
        · linarith
        · exact absurd hnil (not_covers_of_start_gt (by simp))
      | cons c t' =>
        have hbc : b.«end» < c.start := by
          rw [Gapped, List.chain'_cons] at hg
          exact hg.1
        have hWFt' : AllWF t' := fun i hi => hWFt i (List.mem_cons_of_mem _ hi)
        have hcWF : c.start ≤ c.«end» := hWFt c (by simp)
        set x : ℚ := (b.«end» + min a.«end» c.start) / 2 with hx
        have hmin1 : b.«end» < min a.«end» c.start := lt_min hlt hbc
        have hx1 : b.«end» < x := by rw [hx]; linarith
        have hx2 : x < min a.«end» c.start := by rw [hx]; linarith
        have hxa : x < a.«end» := lt_of_lt_of_le hx2 (min_le_left _ _)
        have hxc : x < c.start := lt_of_lt_of_le hx2 (min_le_right _ _)
        have hcx := hcov x (by linarith) (le_of_lt hxa)
        rcases (covers_cons x b (c :: t')).mp hcx with ⟨_, h2⟩ | hct
        · linarith
        · apply absurd hct
          apply not_covers_of_start_gt
          intro i hi
          have := gapped_head_start_le (gapped_tail hg)
            (fun i hi => hWF i (List.mem_cons_of_mem _ hi)) i hi
          linarith
    · -- the left endpoint of `a` is covered only by the tail
      have hbj : b.«end» < j.start :=
        gapped_head_lt hg hWFt j hj
      have hba : b.«end» < a.start := lt_of_lt_of_le hbj hj1
      have hcovt : ∀ x : ℚ, a.start ≤ x → x ≤ a.«end» → covers x t := by
        intro x h1 h2
        rcases (covers_cons x b t).mp (hcov x h1 h2) with ⟨_, hxb⟩ | ht
        · linarith
        · exact ht
      obtain ⟨w, hw, hw1, hw2⟩ := ih (gapped_tail hg) hWFt haWF hcovt
      exact ⟨w, List.mem_cons_of_mem _ hw, hw1, hw2⟩

theorem sumLen_append (l₁ l₂ : List WatchedInterval) :
    sumLen (l₁ ++ l₂) = sumLen l₁ + sumLen l₂ := by
  simp [sumLen_eq_sum]

theorem sumLen_mono_of_covers :
    ∀ (N M : List WatchedInterval), Gapped M → AllWF M → Gapped N → AllWF N →
      (∀ x : ℚ, covers x M → covers x N) → sumLen M ≤ sumLen N := by
  intro N
  induction N with
  | nil =>
    intro M hgM hwM _ _ hsub
    cases M with
    | nil => simp [sumLen]
    | cons a M' =>
      exfalso
      have hc : covers a.start (a :: M') := ⟨a, by simp, le_refl _, hwM a (by simp)⟩
      exact absurd (hsub _ hc) (not_covers_of_start_gt (by simp))
  | cons b N' ih =>
    intro M hgM hwM hgN hwN hsub
    have hwN' : AllWF N' := fun i hi => hwN i (List.mem_cons_of_mem _ hi)
    have hbWF : b.start ≤ b.«end» := hwN b (by simp)
    have hfit : ∀ a ∈ M, ∃ w ∈ b :: N', w.start ≤ a.start ∧ a.«end» ≤ w.«end» := by
      intro a ha
      apply fit_in_gapped hgN hwN (hwM a ha)
      intro x h1 h2
      exact hsub x ⟨a, ha, h1, h2⟩
    set P : WatchedInterval → Bool := fun i => decide (i.«end» ≤ b.«end») with hPdef
    have hMsplit : M.takeWhile P ++ M.dropWhile P = M :=
      List.takeWhile_append_dropWhile P M
    have hmem₁ : ∀ i ∈ M.takeWhile P, i ∈ M := by
      intro i hi; rw [← hMsplit]; exact List.mem_append_left _ hi
    have hmem₂ : ∀ i ∈ M.dropWhile P, i ∈ M := by
      intro i hi; rw [← hMsplit]; exact List.mem_append_right _ hi
    have hgM' : Gapped (M.takeWhile P ++ M.dropWhile P) := by
      rw [hMsplit]; exact hgM
    have hg₁ : Gapped (M.takeWhile P) := by
      rw [Gapped] at hgM' ⊢; exact hgM'.left_of_append
    have hg₂ : Gapped (M.dropWhile P) := by
      rw [Gapped] at hgM' ⊢; exact hgM'.right_of_append
    have hw₁ : AllWF (M.takeWhile P) := fun i hi => hwM i (hmem₁ i hi)
    have hw₂ : AllWF (M.dropWhile P) := fun i hi => hwM i (hmem₂ i hi)
    have hin_b : ∀ i ∈ M.takeWhile P, b.start ≤ i.start ∧ i.«end» ≤ b.«end» := by
      intro i hi
      have hPi : i.«end» ≤ b.«end» := by
        have hp := List.mem_takeWhile_imp hi
        simpa [hPdef] using hp
      obtain ⟨w, hw, hw1, hw2⟩ := hfit i (hmem₁ i hi)
      rcases List.mem_cons.mp hw with hwb | hw'
      · rw [hwb] at hw1; exact ⟨hw1, hPi⟩
      · exfalso
        have hiWF : i.start ≤ i.«end» := hwM i (hmem₁ i hi)
        have := gapped_head_lt hgN hwN' w hw'
        linarith
    have hsum₁ : sumLen (M.takeWhile P) ≤ b.«end» - b.start := by
      apply sumLen_le_of_within _ b.start b.«end» hg₁ hw₁
      · intro i hi; exact (hin_b i hi).1
      · intro i hi; exact (hin_b i hi).2
      · exact hbWF
    have hfit₂ : ∀ a ∈ M.dropWhile P, ∃ w ∈ N', w.start ≤ a.start ∧ a.«end» ≤ w.«end» := by
      cases hM2 : M.dropWhile P with
      | nil => intro a ha; simp at ha
      | cons a₀ rest =>
        have hPa₀ : P a₀ = false := by
          have hh := List.head?_dropWhile_not P M
          rw [hM2] at hh
          simpa using hh
        have ha₀end : b.«end» < a₀.«end» := by
          simpa [hPdef] using hPa₀
        intro a ha
        have haM : a ∈ M := hmem₂ a (by rw [hM2]; exact ha)
        obtain ⟨w, hw, hw1, hw2⟩ := hfit a haM
        rcases List.mem_cons.mp hw with hwb | hw'
        · exfalso
          rw [hwb] at hw2
          rcases List.mem_cons.mp ha with haa | hat
          · rw [haa] at hw2; linarith
          · have hg₂' : Gapped (a₀ :: rest) := by rw [← hM2]; exact hg₂
            have hwrest : AllWF rest := by
              intro i hi
              exact hw₂ i (by rw [hM2]; exact List.mem_cons_of_mem _ hi)
            have hgt := gapped_head_lt hg₂' hwrest a hat
            have haWF : a.start ≤ a.«end» := hwM a haM
            linarith
        · exact ⟨w, hw', hw1, hw2⟩
    have hsub₂ : ∀ x : ℚ, covers x (M.dropWhile P) → covers x N' := by
      rintro x ⟨a, ha, h1, h2⟩
      obtain ⟨w, hw, hw1, hw2⟩ := hfit₂ a ha
      exact ⟨w, hw, le_trans hw1 h1, le_trans h2 hw2⟩
    have hsum₂ : sumLen (M.dropWhile P) ≤ sumLen N' :=
      ih _ hg₂ hw₂ (gapped_tail hgN) hwN' hsub₂
    calc sumLen M = sumLen (M.takeWhile P) + sumLen (M.dropWhile P) := by
          rw [← sumLen_append, hMsplit]
      _ ≤ (b.«end» - b.start) + sumLen N' := add_le_add hsum₁ hsum₂
      _ = sumLen (b :: N') := by rw [sumLen_cons]

theorem gapped_end_le {a b : WatchedInterval} {M' N' : List WatchedInterval}
    (hgM : Gapped (a :: M')) (hwM : AllWF (a :: M'))
    (hstart : a.start = b.start)
    (hsub : ∀ x : ℚ, covers x (b :: N') → covers x (a :: M')) :
    b.«end» ≤ a.«end» := by
  by_contra hlt
  push_neg at hlt
  have haWF : a.start ≤ a.«end» := hwM a (by simp)
  have hwM' : AllWF M' := fun i hi => hwM i (List.mem_cons_of_mem _ hi)
  cases M' with
  | nil =>
    set x : ℚ := (a.«end» + b.«end») / 2 with hx
    have hx1 : a.«end» < x := by rw [hx]; linarith
    have hx2 : x < b.«end» := by rw [hx]; linarith
    have hxb : covers x (b :: N') :=
      ⟨b, by simp, by rw [← hstart]; linarith, le_of_lt hx2⟩
    rcases (covers_cons x a []).mp (hsub x hxb) with ⟨_, h2⟩ | h
    · linarith
    · exact absurd h (not_covers_of_start_gt (by simp))
  | cons c t =>
    have hac : a.«end» < c.start := by
      rw [Gapped, List.chain'_cons] at hgM
      exact hgM.1
    set x : ℚ := (a.«end» + min b.«end» c.start) / 2 with hx
    have hmin : a.«end» < min b.«end» c.start := lt_min hlt hac
    have hx1 : a.«end» < x := by rw [hx]; linarith
    have hx2 : x < min b.«end» c.start := by rw [hx]; linarith
    have hxb : x < b.«end» := lt_of_lt_of_le hx2 (min_le_left _ _)
    have hxc : x < c.start := lt_of_lt_of_le hx2 (min_le_right _ _)
    have hcx : covers x (b :: N') :=
      ⟨b, by simp, by rw [← hstart]; linarith, le_of_lt hxb⟩
    rcases (covers_cons x a (c :: t)).mp (hsub x hcx) with ⟨_, h2⟩ | h
    · linarith
    · apply absurd h
      apply not_covers_of_start_gt
      intro i hi
      have := gapped_head_start_le (gapped_tail hgM) hwM' i hi
      linarith

theorem gapped_covers_unique :
    ∀ (M N : List WatchedInterval), Gapped M → AllWF M → Gapped N → AllWF N →
      (∀ x : ℚ, covers x M ↔ covers x N) → M = N := by
  intro M
  induction M with
  | nil =>
    intro N _ _ _ hwN hiff
    cases N with
    | nil => rfl
    | cons b N' =>
      exfalso
      have hb : covers b.start (b :: N') := ⟨b, by simp, le_refl _, hwN b (by simp)⟩
      have := (hiff b.start).mpr hb
      exact absurd this (not_covers_of_start_gt (by simp))
  | cons a M' ih =>
    intro N hgM hwM hgN hwN hiff
    cases N with
    | nil =>
      exfalso
      have ha : covers a.start (a :: M') := ⟨a, by simp, le_refl _, hwM a (by simp)⟩
      have := (hiff a.start).mp ha
      exact absurd this (not_covers_of_start_gt (by simp))
    | cons b N' =>
      have hwM' : AllWF M' := fun i hi => hwM i (List.mem_cons_of_mem _ hi)
      have hwN' : AllWF N' := fun i hi => hwN i (List.mem_cons_of_mem _ hi)
      have hstart : a.start = b.start := by
        obtain ⟨j, hj, hj1, _⟩ :=
          (hiff a.start).mp ⟨a, by simp, le_refl _, hwM a (by simp)⟩
        obtain ⟨k, hk, hk1, _⟩ :=
          (hiff b.start).mpr ⟨b, by simp, le_refl _, hwN b (by simp)⟩
        have hbj := gapped_head_start_le hgN hwN j hj
        have hak := gapped_head_start_le hgM hwM k hk
        have h₁ : b.start ≤ a.start := le_trans hbj hj1
        have h₂ : a.start ≤ b.start := le_trans hak hk1
        linarith
      have hend : a.«end» = b.«end» := by
        have h₁ : b.«end» ≤ a.«end» :=
          gapped_end_le hgM hwM hstart (fun x hx => (hiff x).mpr hx)
        have h₂ : a.«end» ≤ b.«end» :=
          gapped_end_le hgN hwN hstart.symm (fun x hx => (hiff x).mp hx)
        linarith
      have hab : a = b := by
        have h1 : a = ⟨a.start, a.«end»⟩ := rfl
        rw [h1, hstart, hend]
      subst hab
      have htails : ∀ x : ℚ, covers x M' ↔ covers x N' := by
        have key : ∀ (p q : List WatchedInterval),
            (∀ y : ℚ, covers y (a :: p) → covers y (a :: q)) → AllWF p →
            Gapped (a :: p) → ∀ x : ℚ, covers x p → covers x q := by
          intro p q hpq hwp hgp x hx
          obtain ⟨i, hi, hi1, hi2⟩ := hx
          have hgt : a.«end» < i.start := gapped_head_lt hgp hwp i hi
          have hxp : covers x (a :: p) := ⟨i, List.mem_cons_of_mem _ hi, hi1, hi2⟩
          rcases (covers_cons x a q).mp (hpq x hxp) with ⟨_, h2⟩ | h
          · linarith
          · exact h
        intro x
        exact ⟨key M' N' (fun y hy => (hiff y).mp hy) hwM' hgM x,
          key N' M' (fun y hy => (hiff y).mpr hy) hwN' hgN x⟩
      have := ih N' (gapped_tail hgM) hwM' (gapped_tail hgN) hwN' htails
      rw [this]

theorem mergeIntervals_eq_of_covers {X Y : List WatchedInterval}
    (hX : AllWF X) (hY : AllWF Y) (h : ∀ x : ℚ, covers x X ↔ covers x Y) :
    mergeIntervals X = mergeIntervals Y :=
  gapped_covers_unique _ _ (mergeIntervals_gapped X) (mergeIntervals_WF hX)
    (mergeIntervals_gapped Y) (mergeIntervals_WF hY)
    (fun x => by rw [mergeIntervals_covers, mergeIntervals_covers]; exact h x)

theorem map_snd_orderedInsert (a : ℕ × WatchedInterval) :
    ∀ L : List (ℕ × WatchedInterval),
      (L.orderedInsert taggedLE a).map Prod.snd
        = (L.map Prod.snd).orderedInsert startLE a.2
  | [] => rfl
  | b :: t => by
    by_cases h : taggedLE a b
    · have h' : startLE a.2 b.2 := h
      simp [List.orderedInsert, h, h']
    · have h' : ¬ startLE a.2 b.2 := h
      simp [List.orderedInsert, h, h', map_snd_orderedInsert a t]

theorem map_snd_sortTagged : ∀ L : List (ℕ × WatchedInterval),
    (sortTagged L).map Prod.snd = sortByStart (L.map Prod.snd)
  | [] => rfl
  | a :: t => by
    show (List.orderedInsert taggedLE a (sortTagged t)).map Prod.snd = _
    rw [map_snd_orderedInsert, map_snd_sortTagged t]
    rfl

theorem map_snd_mergeLoopIdx :
    ∀ (t : List (ℕ × WatchedInterval)) (acc : ℕ × WatchedInterval),
      (mergeLoopIdx acc t).map Prod.snd = mergeLoop acc.2 (t.map Prod.snd) := by
  intro t
  induction t with
  | nil => intro acc; rfl
  | cons c r ih =>
    intro acc
    by_cases h : c.2.start ≤ acc.2.«end»
    · simp only [mergeLoopIdx, List.map_cons, mergeLoop, if_pos h]
      exact ih _
    · simp only [mergeLoopIdx, List.map_cons, mergeLoop, if_neg h, List.map_cons]
      rw [ih c]

theorem mergePass_map_snd (l : List WatchedInterval) :
    (mergePass l).map Prod.snd = mergeIntervals l := by
  have hms : (sortTagged l.enum).map Prod.snd = sortByStart l := by
    rw [map_snd_sortTagged, List.enum_map_snd]
  rw [mergePass, mergeIntervals]
  cases hL : sortTagged l.enum with
  | nil =>
    rw [hL, List.map_nil] at hms
    rw [← hms]
    rfl
  | cons a t =>
    rw [hL, List.map_cons] at hms
    rw [← hms]
    exact map_snd_mergeLoopIdx t a

theorem mem_mergeMutate {l : List WatchedInterval} :
    ∀ o ∈ mergeMutate l, o ∈ l ∨ o ∈ mergeIntervals l := by
  intro o ho
  rw [mergeMutate] at ho
  obtain ⟨p, hp, hpo⟩ := List.mem_map.mp ho
  cases hfind : (mergePass l).find? (fun q => q.1 == p.1) with
  | none =>
    simp only [hfind, Option.map_none', Option.getD_none] at hpo
    left
    rw [← hpo, ← List.enum_map_snd l]
    exact List.mem_map_of_mem Prod.snd hp
  | some q =>
    simp only [hfind, Option.map_some', Option.getD_some] at hpo
    right
    rw [← hpo, ← mergePass_map_snd]
    exact List.mem_map_of_mem Prod.snd (List.mem_of_find?_eq_some hfind)

theorem mergeMutate_WF {l : List WatchedInterval} (h : AllWF l) :
    AllWF (mergeMutate l) := by
  intro o ho
  rcases mem_mergeMutate o ho with h1 | h1
  · exact h o h1
  · exact mergeIntervals_WF h o h1

theorem mergeLoopIdx_dominates (G : List (ℕ × WatchedInterval)) :
    ∀ (t : List (ℕ × WatchedInterval)) (acc : ℕ × WatchedInterval),
      (∃ p ∈ G, acc.1 = p.1 ∧ acc.2.start = p.2.start ∧ p.2.«end» ≤ acc.2.«end») →
      (∀ c ∈ t, c ∈ G) →
      ∀ q ∈ mergeLoopIdx acc t,
        ∃ p ∈ G, q.1 = p.1 ∧ q.2.start = p.2.start ∧ p.2.«end» ≤ q.2.«end» := by
  intro t
  induction t with
  | nil =>
    intro acc hacc _ q hq
    rw [mergeLoopIdx, List.mem_singleton] at hq
    rw [hq]
    exact hacc
  | cons c r ih =>
    intro acc hacc hsub q hq
    by_cases h : c.2.start ≤ acc.2.«end»
    · rw [mergeLoopIdx, if_pos h] at hq
      refine ih _ ?_ (fun d hd => hsub d (List.mem_cons_of_mem _ hd)) q hq
      obtain ⟨p, hp, h1, h2, h3⟩ := hacc
      exact ⟨p, hp, h1, h2, le_trans h3 (le_max_left _ _)⟩
    · rw [mergeLoopIdx, if_neg h, List.mem_cons] at hq
      rcases hq with hq | hq
      · rw [hq]
        exact hacc
      · exact ih c ⟨c, hsub c (by simp), rfl, rfl, le_refl _⟩
          (fun d hd => hsub d (List.mem_cons_of_mem _ hd)) q hq

theorem mergePass_dominates {l : List WatchedInterval} :
    ∀ q ∈ mergePass l, ∃ p ∈ l.enum,
      q.1 = p.1 ∧ q.2.start = p.2.start ∧ p.2.«end» ≤ q.2.«end» := by
  intro q hq
  rw [mergePass] at hq
  have hperm : ∀ x ∈ sortTagged l.enum, x ∈ l.enum := by
    intro x hx
    exact (List.perm_insertionSort taggedLE l.enum).mem_iff.mp hx
  cases hL : sortTagged l.enum with
  | nil =>
    rw [hL] at hq
    simp at hq
  | cons a t =>
    rw [hL] at hq
    refine mergeLoopIdx_dominates l.enum t a ⟨a, ?_, rfl, rfl, le_refl _⟩ ?_ q hq
    · exact hperm a (by rw [hL]; simp)
    · intro c hc
      exact hperm c (by rw [hL]; simp [hc])

theorem enum_snd_unique {l : List WatchedInterval} {p q : ℕ × WatchedInterval}
    (hp : p ∈ l.enum) (hq : q ∈ l.enum) (h : p.1 = q.1) : p.2 = q.2 := by
  rw [List.mem_enum_iff_getElem?] at hp hq
  rw [h, hq] at hp
  injection hp with h2
  exact h2.symm

theorem covers_mergeMutate (l : List WatchedInterval) (x : ℚ) :
    covers x (mergeMutate l) ↔ covers x l := by
  constructor
  · rintro ⟨o, ho, hx⟩
    rcases mem_mergeMutate o ho with h1 | h1
    · exact ⟨o, h1, hx⟩
    · exact (mergeIntervals_covers l x).mp ⟨o, h1, hx⟩
  · rintro ⟨o, ho, hx1, hx2⟩
    have hpos : ∃ p ∈ l.enum, p.2 = o := by
      rw [← List.enum_map_snd l] at ho
      obtain ⟨p, hp, hpo⟩ := List.mem_map.mp ho
      exact ⟨p, hp, hpo⟩
    obtain ⟨p, hp, hpo⟩ := hpos
    refine ⟨(((mergePass l).find? (fun q => q.1 == p.1)).map Prod.snd).getD p.2,
      List.mem_map_of_mem _ hp, ?_⟩
    cases hfind : (mergePass l).find? (fun q => q.1 == p.1) with
    | none =>
      simp only [Option.map_none', Option.getD_none]
      rw [hpo]
      exact ⟨hx1, hx2⟩
    | some q =>
      simp only [Option.map_some', Option.getD_some]
      obtain ⟨p', hp', h1, h2, h3⟩ :=
        mergePass_dominates q (List.mem_of_find?_eq_some hfind)
      have h4 := List.find?_some hfind
      have hkey : q.1 = p.1 := eq_of_beq h4
      have hp'p : p'.2 = p.2 := enum_snd_unique hp' hp (by rw [← h1, hkey])
      constructor
      · rw [h2, hp'p, hpo]
        exact hx1
      · refine le_trans hx2 ?_
        rw [← hpo, ← hp'p]
        exact h3

theorem mergeIntervals_mergeMutate {l : List WatchedInterval} (h : AllWF l) :
    mergeIntervals (mergeMutate l) = mergeIntervals l :=
  mergeIntervals_eq_of_covers (mergeMutate_WF h) h (covers_mergeMutate l)

theorem sortTagged_of_sortedStarts {l : List WatchedInterval}
    (h : SortedStarts l) : sortTagged l.enum = l.enum := by
  apply List.Sorted.insertionSort_eq
  have h2 : List.Pairwise (fun p q : ℕ × WatchedInterval => startLE p.2 q.2) l.enum := by
    rw [SortedStarts, List.Sorted] at h
    rw [← List.enum_map_snd l, List.pairwise_map] at h
    exact h
  exact h2

theorem mergeLoopIdx_of_gapped :
    ∀ (t : List (ℕ × WatchedInterval)) (acc : ℕ × WatchedInterval),
      Gapped (acc.2 :: t.map Prod.snd) → mergeLoopIdx acc t = acc :: t := by
  intro t
  induction t with
  | nil => intro acc _; rfl
  | cons c r ih =>
    intro acc h
    rw [Gapped, List.map_cons, List.chain'_cons] at h
    obtain ⟨h1, h2⟩ := h
    rw [mergeLoopIdx, if_neg (not_le.mpr h1), ih c (by rw [Gapped]; exact h2)]

theorem find?_key_first :
    ∀ {L : List (ℕ × WatchedInterval)}, (L.map Prod.fst).Nodup →
      ∀ p ∈ L, L.find? (fun q => q.1 == p.1) = some p := by
  intro L
  induction L with
  | nil => intro _ p hp; simp at hp
  | cons a t ih =>
    intro hnd p hp
    rw [List.map_cons, List.nodup_cons] at hnd
    obtain ⟨hna, hndt⟩ := hnd
    rcases List.mem_cons.mp hp with hpa | hpt
    · have hbeq : (fun q : ℕ × WatchedInterval => q.1 == p.1) a = true := by
        rw [hpa]
        simp
      rw [List.find?_cons_of_pos t hbeq, hpa]
    · have hne : a.1 ≠ p.1 := by
        intro he
        apply hna
        rw [he]
        exact List.mem_map_of_mem Prod.fst hpt
      have hbeq : ¬ (fun q : ℕ × WatchedInterval => q.1 == p.1) a = true := by
        simp [hne]
      rw [List.find?_cons_of_neg t hbeq]
      exact ih hndt p hpt

theorem mergeMutate_of_normalized {l : List WatchedInterval}
    (hs : SortedStarts l) (hg : Gapped l) : mergeMutate l = l := by
  have hpass : mergePass l = l.enum := by
    rw [mergePass, sortTagged_of_sortedStarts hs]
    cases hE : l.enum with
    | nil => rfl
    | cons a t =>
      apply mergeLoopIdx_of_gapped
      have hsnd : a.2 :: t.map Prod.snd = l := by
        rw [← List.map_cons, ← hE, List.enum_map_snd]
      rw [hsnd]
      exact hg
  have hmap : ∀ p ∈ l.enum,
      (((mergePass l).find? (fun q => q.1 == p.1)).map Prod.snd).getD p.2
        = Prod.snd p := by
    intro p hp
    rw [hpass, find?_key_first (List.nodup_enum_map_fst l) p hp]
    rfl
  rw [mergeMutate, List.map_congr_left hmap, List.enum_map_snd]

@[simp] theorem mergeMutate_mergeIntervals (X : List WatchedInterval) :
    mergeMutate (mergeIntervals X) = mergeIntervals X :=
  mergeMutate_of_normalized (mergeIntervals_sortedStarts X) (mergeIntervals_gapped X)

@[simp] theorem saveProgress_videoId (s : TrackerState) :
    (saveProgress s).videoId = s.videoId := rfl

@[simp] theorem saveProgress_watchedIntervals (s : TrackerState) :
    (saveProgress s).watchedIntervals = mergeMutate s.watchedIntervals := rfl

@[simp] theorem saveProgress_lastPosition (s : TrackerState) :
    (saveProgress s).lastPosition = s.lastPosition := rfl

@[simp] theorem saveProgress_duration (s : TrackerState) :
    (saveProgress s).duration = s.duration := rfl

@[simp] theorem saveProgress_trackingStartTime (s : TrackerState) :
    (saveProgress s).trackingStartTime = s.trackingStartTime := rfl

@[simp] theorem saveProgress_isTracking (s : TrackerState) :
    (saveProgress s).isTracking = s.isTracking := rfl

@[simp] theorem saveProgress_totalProgress (s : TrackerState) :
    (saveProgress s).totalProgress = s.totalProgress := rfl

@[simp] theorem saveProgress_storage (s : TrackerState) :
    (saveProgress s).storage = some ⟨s.watchedIntervals, s.lastPosition⟩ := rfl

@[simp] theorem saveProgress_notifications (s : TrackerState) :
    (saveProgress s).notifications = getProgressData s :: s.notifications := rfl

@[simp] theorem calculateProgress_videoId (s : TrackerState) :
    (calculateProgress s).videoId = s.videoId := by
  rw [calculateProgress]; split <;> rfl

@[simp] theorem calculateProgress_watchedIntervals (s : TrackerState) :
    (calculateProgress s).watchedIntervals
      = if 0 < s.duration then mergeMutate s.watchedIntervals
        else s.watchedIntervals := by
  rw [calculateProgress]; split <;> rfl

@[simp] theorem calculateProgress_lastPosition (s : TrackerState) :
    (calculateProgress s).lastPosition = s.lastPosition := by
  rw [calculateProgress]; split <;> rfl

@[simp] theorem calculateProgress_duration (s : TrackerState) :
    (calculateProgress s).duration = s.duration := by
  rw [calculateProgress]; split <;> rfl

@[simp] theorem calculateProgress_trackingStartTime (s : TrackerState) :
    (calculateProgress s).trackingStartTime = s.trackingStartTime := by
  rw [calculateProgress]; split <;> rfl

@[simp] theorem calculateProgress_isTracking (s : TrackerState) :
    (calculateProgress s).isTracking = s.isTracking := by
  rw [calculateProgress]; split <;> rfl

@[simp] theorem calculateProgress_storage (s : TrackerState) :
    (calculateProgress s).storage = s.storage := by
  rw [calculateProgress]; split <;> rfl

@[simp] theorem calculateProgress_notifications (s : TrackerState) :
    (calculateProgress s).notifications = s.notifications := by
  rw [calculateProgress]; split <;> rfl

theorem calculateProgress_totalProgress_pos {s : TrackerState} (hd : 0 < s.duration) :
    (calculateProgress s).totalProgress
      = min (calculateUniqueWatchedTime s / s.duration * 100) 100 := by
  rw [calculateProgress, if_pos hd]

theorem calculateProgress_totalProgress_of_not_pos {s : TrackerState}
    (hd : ¬ 0 < s.duration) :
    (calculateProgress s).totalProgress = s.totalProgress := by
  rw [calculateProgress, if_neg hd]

theorem abs_ge_one_ne {a p : ℚ} (hd : 1 ≤ |a - p|) : a ≠ p := by
  intro h
  rw [h, sub_self, abs_zero] at hd
  linarith

theorem stopTracking_not_tracking {s : TrackerState} (p : ℚ)
    (ht : ¬ s.isTracking = true) : stopTracking s p = s := by
  rw [stopTracking, if_neg]
  rintro ⟨h1, _⟩
  exact ht h1

theorem stopTracking_anchor_eq {s : TrackerState} {p : ℚ}
    (h : s.trackingStartTime = p) : stopTracking s p = s := by
  rw [stopTracking, if_neg]
  rintro ⟨_, h2⟩
  exact h2 h

theorem stopTracking_below_threshold {s : TrackerState} {p : ℚ}
    (ht : s.isTracking = true) (hne : s.trackingStartTime ≠ p)
    (hd : ¬ 1 ≤ |s.trackingStartTime - p|) :
    stopTracking s p = { s with isTracking := false } := by
  rw [stopTracking, if_pos ⟨ht, hne⟩, if_neg hd]

theorem stopTracking_commit {s : TrackerState} {p : ℚ}
    (ht : s.isTracking = true) (hd : 1 ≤ |s.trackingStartTime - p|) :
    stopTracking s p =
      { saveProgress (calculateProgress { s with
          watchedIntervals := mergeIntervals (s.watchedIntervals ++
            [⟨min s.trackingStartTime p, max s.trackingStartTime p⟩])
          lastPosition := p }) with isTracking := false } := by
  rw [stopTracking, if_pos ⟨ht, abs_ge_one_ne hd⟩, if_pos hd]

/-- Claim C1: for every tracker state with an active session, handleSeek(d)
commits (if anything) an interval determined by the anchor and the last known
position recorded before the seek, never one involving the destination d,
and in every case sets lastPosition to d afterwards, whether or not a
session was active. -/
theorem claim_C1_seek_boundary (s : TrackerState) (d : ℚ) :
    (handleSeek s d).lastPosition = d ∧
    (s.isTracking = true →
      (handleSeek s d).watchedIntervals =
        if 1 ≤ |s.lastPosition - s.trackingStartTime| then
          mergeIntervals (s.watchedIntervals ++
            [⟨min s.trackingStartTime s.lastPosition,
              max s.trackingStartTime s.lastPosition⟩])
        else s.watchedIntervals) := by
  rw [abs_sub_comm s.lastPosition s.trackingStartTime]
  by_cases ht : s.isTracking = true
  · by_cases hd : 1 ≤ |s.trackingStartTime - s.lastPosition|
    · have hcommit := stopTracking_commit ht hd
      simp only [handleSeek, ht, if_true, hcommit]
      rw [if_pos hd]
      constructor
      · split <;> rfl
      · intro _
        split <;> simp
    · rw [if_neg hd]
      by_cases he : s.trackingStartTime = s.lastPosition
      · have hstop := stopTracking_anchor_eq he
        simp only [handleSeek, ht, if_true, hstop]
        exact ⟨trivial, fun _ => trivial⟩
      · have hstop := stopTracking_below_threshold ht he hd
        simp only [handleSeek, ht, if_true, hstop]
        constructor
        · split <;> rfl
        · intro _
          split <;> rfl
  · simp only [handleSeek, if_neg ht]
    exact ⟨trivial, fun h => absurd h ht⟩

/-- Witness for claim C1 at a concrete active session: anchored at 10 with
pre-seek position 30, seeking to 50 commits the interval from 10 to 30 and
moves lastPosition to 50. -/
theorem claim_C1_seek_boundary_witness :
    (handleSeek ⟨"v", [], 30, 100, 10, true, 0, none, []⟩ 50).lastPosition = 50 ∧
    (handleSeek (⟨"v", [], 30, 100, 10, true, 0, none, []⟩ : TrackerState) 50).watchedIntervals
      = if 1 ≤ |(30 : ℚ) - 10| then
          mergeIntervals ([] ++ [⟨min (10 : ℚ) 30, max (10 : ℚ) 30⟩])
        else [] := by
  have h := claim_C1_seek_boundary ⟨"v", [], 30, 100, 10, true, 0, none, []⟩ 50
  exact ⟨h.1, h.2 rfl⟩

/-- Claim C3 counterexample: the claim says stopTracking closes the session
regardless of whether a segment was committed, but stopping exactly at the
anchor (startTracking(5) then stopTracking(5)) leaves the session active:
the `isTracking = false` assignment sits inside the
`trackingStartTime !== currentPosition` guard. -/
theorem claim_C3_counterexample :
    (startTracking (mkTracker "v" 100 none) 5).isTracking = true ∧
    (stopTracking (startTracking (mkTracker "v" 100 none) 5) 5).isTracking = true := by
  exact ⟨rfl, rfl⟩

/-- Claim C3 (amended): for a state with an active session anchored at a,
stopTracking(p) commits [min(a,p), max(a,p)] into the merged set, recomputes
totalProgress, persists and notifies exactly when |p - a| ≥ 1; discards the
segment (no interval added, nothing persisted, no notification) when
|p - a| < 1; and closes the session exactly when p differs from a — when
p = a the call is a no-op that leaves the session active. -/
theorem claim_C3_stop_commit (s : TrackerState) (p : ℚ)
    (ht : s.isTracking = true) :
    (1 ≤ |p - s.trackingStartTime| →
      (stopTracking s p).watchedIntervals = mergeIntervals (s.watchedIntervals ++
        [⟨min s.trackingStartTime p, max s.trackingStartTime p⟩]) ∧
      (stopTracking s p).totalProgress = (if 0 < s.duration then
          min (sumLen (mergeIntervals (s.watchedIntervals ++
            [⟨min s.trackingStartTime p, max s.trackingStartTime p⟩])) / s.duration * 100) 100
        else s.totalProgress) ∧
      (stopTracking s p).storage = some ⟨(stopTracking s p).watchedIntervals, p⟩ ∧
      (stopTracking s p).notifications
        = getProgressData (stopTracking s p) :: s.notifications) ∧
    (|p - s.trackingStartTime| < 1 →
      (stopTracking s p).watchedIntervals = s.watchedIntervals ∧
      (stopTracking s p).storage = s.storage ∧
      (stopTracking s p).notifications = s.notifications ∧
      (stopTracking s p).totalProgress = s.totalProgress) ∧
    ((stopTracking s p).isTracking = false ↔ p ≠ s.trackingStartTime) := by
  by_cases he : s.trackingStartTime = p
  · have hstop := stopTracking_anchor_eq he
    rw [hstop]
    refine ⟨fun habs => ?_, fun _ => ⟨rfl, rfl, rfl, rfl⟩, ?_⟩
    · exfalso
      rw [he, sub_self, abs_zero] at habs
      linarith
    · rw [ht]
      constructor
      · intro h
        exact absurd h (by simp)
      · intro h
        exact absurd he.symm h
  · by_cases habs : 1 ≤ |s.trackingStartTime - p|
    · have hcommit := stopTracking_commit ht habs
      refine ⟨fun _ => ?_, fun hlt => ?_, ?_⟩
      · rw [hcommit]
        refine ⟨by simp, ?_, by simp, by simp [getProgressData]⟩
        by_cases hdur : 0 < s.duration
        · rw [if_pos hdur]
          show (calculateProgress _).totalProgress = _
          rw [calculateProgress_totalProgress_pos (by simpa using hdur)]
          rw [calculateUniqueWatchedTime]
          simp only [TrackerState.watchedIntervals]
          rw [mergeIntervals_idem]
        · rw [if_neg hdur]
          show (calculateProgress _).totalProgress = _
          rw [calculateProgress_totalProgress_of_not_pos (by simpa using hdur)]
      · exfalso
        rw [abs_sub_comm] at habs
        linarith
      · rw [hcommit]
        exact ⟨fun _ h => he h.symm, fun _ => rfl⟩
    · have hstop := stopTracking_below_threshold ht he habs
      rw [hstop]
      refine ⟨fun h => ?_, fun _ => ⟨rfl, rfl, rfl, rfl⟩, ?_⟩
      · exfalso
        rw [abs_sub_comm] at h
        exact habs h
      · exact ⟨fun _ h => he h.symm, fun _ => rfl⟩

/-- Witness for claim C3 at a concrete session: startTracking(5) followed by
stopTracking(5.5) commits no interval and persists nothing (the spec's
sub-threshold example), while stopTracking(10) commits [5, 10]. -/
theorem claim_C3_stop_commit_witness :
    (stopTracking (startTracking (mkTracker "v" 100 none) 5) (11 / 2)).watchedIntervals = [] ∧
    (stopTracking (startTracking (mkTracker "v" 100 none) 5) (11 / 2)).storage = none ∧
    (stopTracking (startTracking (mkTracker "v" 100 none) 5) 10).watchedIntervals
      = mergeIntervals ([] ++ [⟨min (5 : ℚ) 10, max (5 : ℚ) 10⟩]) := by
  have h₁ := claim_C3_stop_commit (startTracking (mkTracker "v" 100 none) 5) (11 / 2) rfl
  have h₂ := claim_C3_stop_commit (startTracking (mkTracker "v" 100 none) 5) 10 rfl
  have hlt : |(11 / 2 : ℚ) -
      (startTracking (mkTracker "v" 100 none) 5).trackingStartTime| < 1 := by
    show |(11 / 2 : ℚ) - 5| < 1
    rw [show (11 / 2 : ℚ) - 5 = 1 / 2 by norm_num,
      abs_of_nonneg (by norm_num : (0 : ℚ) ≤ 1 / 2)]
    norm_num
  have hge : 1 ≤ |(10 : ℚ) -
      (startTracking (mkTracker "v" 100 none) 5).trackingStartTime| := by
    show 1 ≤ |(10 : ℚ) - 5|
    rw [show (10 : ℚ) - 5 = 5 by norm_num,
      abs_of_nonneg (by norm_num : (0 : ℚ) ≤ 5)]
    norm_num
  exact ⟨(h₁.2.1 hlt).1, (h₁.2.1 hlt).2.1, (h₂.1 hge).1⟩

/-- Claim C10: stopTracking changes lastPosition (to p) only when it commits
a segment (active session and |p - anchor| ≥ 1); with no active session or a
sub-threshold delta it leaves lastPosition, intervals and totalProgress
unchanged and performs no persistence write and no notification. -/
theorem claim_C10_stop_frame (s : TrackerState) (p : ℚ) :
    ((stopTracking s p).lastPosition ≠ s.lastPosition →
      s.isTracking = true ∧ 1 ≤ |p - s.trackingStartTime| ∧
      (stopTracking s p).lastPosition = p) ∧
    (¬ s.isTracking = true ∨ |p - s.trackingStartTime| < 1 →
      (stopTracking s p).lastPosition = s.lastPosition ∧
      (stopTracking s p).watchedIntervals = s.watchedIntervals ∧
      (stopTracking s p).totalProgress = s.totalProgress ∧
      (stopTracking s p).storage = s.storage ∧
      (stopTracking s p).notifications = s.notifications) := by
  by_cases ht : s.isTracking = true
  · by_cases he : s.trackingStartTime = p
    · rw [stopTracking_anchor_eq he]
      refine ⟨fun h => absurd rfl h, fun _ => ⟨rfl, rfl, rfl, rfl, rfl⟩⟩
    · by_cases habs : 1 ≤ |s.trackingStartTime - p|
      · rw [stopTracking_commit ht habs]
        constructor
        · intro _
          exact ⟨ht, by rw [abs_sub_comm]; exact habs, by simp⟩
        · rintro (h | h)
          · exact absurd ht h
          · rw [abs_sub_comm] at h
            linarith
      · rw [stopTracking_below_threshold ht he habs]
        exact ⟨fun h => absurd rfl h, fun _ => ⟨rfl, rfl, rfl, rfl, rfl⟩⟩
  · rw [stopTracking_not_tracking p ht]
    exact ⟨fun h => absurd rfl h, fun _ => ⟨rfl, rfl, rfl, rfl, rfl⟩⟩

/-- Witness for claim C10 at a concrete active session anchored at 5 with a
sub-threshold stop at 5.5: nothing observable changes. -/
theorem claim_C10_stop_frame_witness :
    (stopTracking ⟨"v", [⟨0, 2⟩], 3, 100, 5, true, 2, none, []⟩ (11 / 2)).lastPosition = 3 ∧
    (stopTracking (⟨"v", [⟨0, 2⟩], 3, 100, 5, true, 2, none, []⟩ : TrackerState)
        (11 / 2)).watchedIntervals = [⟨0, 2⟩] ∧
    (stopTracking (⟨"v", [⟨0, 2⟩], 3, 100, 5, true, 2, none, []⟩ : TrackerState)
        (11 / 2)).totalProgress = 2 ∧
    (stopTracking (⟨"v", [⟨0, 2⟩], 3, 100, 5, true, 2, none, []⟩ : TrackerState)
        (11 / 2)).storage = none ∧
    (stopTracking (⟨"v", [⟨0, 2⟩], 3, 100, 5, true, 2, none, []⟩ : TrackerState)
        (11 / 2)).notifications = [] := by
  have h := (claim_C10_stop_frame ⟨"v", [⟨0, 2⟩], 3, 100, 5, true, 2, none, []⟩ (11 / 2)).2
  apply h
  right
  show |(11 / 2 : ℚ) - 5| < 1
  rw [show (11 / 2 : ℚ) - 5 = 1 / 2 by norm_num,
    abs_of_nonneg (by norm_num : (0 : ℚ) ≤ 1 / 2)]
  norm_num

/-- Claim C9: after reset() the intervals are empty, lastPosition and
totalProgress are zero, the persisted record is gone, and the observer is
notified. -/
theorem claim_C9_reset (s : TrackerState) (_hs : Reachable s) :
    (reset s).watchedIntervals = [] ∧
    (reset s).lastPosition = 0 ∧
    (reset s).totalProgress = 0 ∧
    (reset s).storage = none ∧
    (reset s).notifications = getProgressData (reset s) :: s.notifications :=
  ⟨rfl, rfl, rfl, rfl, rfl⟩

/-- Witness for claim C9 on a freshly constructed (hence reachable)
tracker. -/
theorem claim_C9_reset_witness :
    (reset (mkTracker "v" 100 none)).watchedIntervals = [] ∧
    (reset (mkTracker "v" 100 none)).lastPosition = 0 ∧
    (reset (mkTracker "v" 100 none)).totalProgress = 0 ∧
    (reset (mkTracker "v" 100 none)).storage = none ∧
    (reset (mkTracker "v" 100 none)).notifications
      = getProgressData (reset (mkTracker "v" 100 none))
          :: (mkTracker "v" 100 none).notifications :=
  claim_C9_reset (mkTracker "v" 100 none) (Reachable.init "v" 100 none)

/-- Claim C6 counterexample: the claim says a successful import replaces
the intervals from the text, but with duration 100 importing the
overlapping payload [{0,20},{15,30}] leaves watchedIntervals as
[{0,30},{15,30}]: the merge run during progress recomputation widens the
first stored object in place, so the installed list is not the payload
list. -/
theorem claim_C6_counterexample :
    (importProgressData (mkTracker "v" 100 none)
        (some ⟨"v", some [⟨0, 20⟩, ⟨15, 30⟩], some 0⟩)).1 = true ∧
    (importProgressData (mkTracker "v" 100 none)
        (some ⟨"v", some [⟨0, 20⟩, ⟨15, 30⟩], some 0⟩)).2.watchedIntervals
      = [⟨0, 30⟩, ⟨15, 30⟩] ∧
    ([⟨0, 30⟩, ⟨15, 30⟩] : List WatchedInterval) ≠ [⟨0, 20⟩, ⟨15, 30⟩] := by
  refine ⟨by decide, by decide, by decide⟩

/-- Claim C6 (amended): import returns true exactly when the payload parses
and its videoId matches; on success it sets lastPosition from the payload
(defaulting to 0) and installs the payload's interval list subject to the
in-place end-widening the merge performs on the stored objects during
progress recomputation (when duration > 0) and snapshot construction — not
the payload list verbatim; progress is recomputed from the payload's merged
coverage when duration > 0, the interval list current at save time is
persisted together with the new lastPosition, and the observer is notified;
on any parse failure or videoId mismatch it returns false and the state is
exactly unchanged. -/
theorem claim_C6_import_contract (s : TrackerState) (parsed : Option ImportDoc) :
    ((importProgressData s parsed).1 = true ↔
      ∃ data, parsed = some data ∧ data.videoId = s.videoId) ∧
    (∀ data, parsed = some data → data.videoId = s.videoId →
      (importProgressData s parsed).2.watchedIntervals
        = (if 0 < s.duration
            then mergeMutate (mergeMutate (data.intervals.getD []))
            else mergeMutate (data.intervals.getD [])) ∧
      (importProgressData s parsed).2.lastPosition = data.lastPosition.getD 0 ∧
      (importProgressData s parsed).2.totalProgress = (if 0 < s.duration then
          min (sumLen (mergeIntervals (data.intervals.getD [])) / s.duration * 100) 100
        else s.totalProgress) ∧
      (importProgressData s parsed).2.storage
        = some ⟨(if 0 < s.duration then mergeMutate (data.intervals.getD [])
            else data.intervals.getD []), data.lastPosition.getD 0⟩ ∧
      (importProgressData s parsed).2.notifications
        = ⟨mergeIntervals (if 0 < s.duration then mergeMutate (data.intervals.getD [])
              else data.intervals.getD []),
            data.lastPosition.getD 0,
            (importProgressData s parsed).2.totalProgress,
            s.videoId⟩ :: s.notifications) ∧
    ((importProgressData s parsed).1 = false → (importProgressData s parsed).2 = s) := by
  cases parsed with
  | none =>
    refine ⟨?_, ?_, fun _ => rfl⟩
    · simp [importProgressData]
    · intro data h
      exact absurd h (by simp)
  | some data =>
    by_cases hv : data.videoId = s.videoId
    · rw [importProgressData]
      simp only [hv, if_pos]
      refine ⟨by simp [hv], ?_, by simp⟩
      intro d hd _
      have hdd : d = data := by
        injection hd.symm
      subst hdd
      by_cases hdur : 0 < s.duration
      · refine ⟨by simp [hdur], by simp, ?_, by simp [hdur], ?_⟩
        · rw [if_pos hdur]
          show (calculateProgress _).totalProgress = _
          rw [calculateProgress_totalProgress_pos (by simpa using hdur)]
          rfl
        · rw [if_pos hdur]
          simp [hdur, getProgressData]
      · refine ⟨by simp [hdur], by simp, ?_, by simp [hdur], ?_⟩
        · rw [if_neg hdur]
          show (calculateProgress _).totalProgress = _
          rw [calculateProgress_totalProgress_of_not_pos (by simpa using hdur)]
        · rw [if_neg hdur]
          simp [hdur, getProgressData]
    · rw [importProgressData]
      simp only [hv, if_neg, if_false]
      refine ⟨by simp [hv], ?_, fun _ => trivial⟩
      intro d hd hvd
      have hdd : d = data := by injection hd.symm
      subst hdd
      exact absurd hvd hv

/-- Witness for claim C6: importing a v1 payload into a v2 tracker fails
and leaves the tracker untouched; importing it into a v1 tracker succeeds,
installing the payload's lastPosition and its interval list through the
merge's in-place widening passes. -/
theorem claim_C6_import_contract_witness :
    (importProgressData (mkTracker "v2" 100 none)
        (some ⟨"v1", some [⟨0, 20⟩], some 7⟩)).2 = mkTracker "v2" 100 none ∧
    (importProgressData (mkTracker "v1" 100 none)
        (some ⟨"v1", some [⟨0, 20⟩], some 7⟩)).2.lastPosition = 7 ∧
    (importProgressData (mkTracker "v1" 100 none)
        (some ⟨"v1", some [⟨0, 20⟩], some 7⟩)).2.watchedIntervals
      = mergeMutate (mergeMutate [⟨0, 20⟩]) := by
  refine ⟨?_, ?_, ?_⟩
  · exact (claim_C6_import_contract (mkTracker "v2" 100 none)
      (some ⟨"v1", some [⟨0, 20⟩], some 7⟩)).2.2 (by decide)
  · exact ((claim_C6_import_contract (mkTracker "v1" 100 none)
      (some ⟨"v1", some [⟨0, 20⟩], some 7⟩)).2.1 _ rfl rfl).2.1
  · have h := ((claim_C6_import_contract (mkTracker "v1" 100 none)
      (some ⟨"v1", some [⟨0, 20⟩], some 7⟩)).2.1 _ rfl rfl).1
    rw [h, if_pos (show (0 : ℚ) < (mkTracker "v1" 100 none).duration from by
      show (0 : ℚ) < 100
      norm_num)]
    rfl

/-- Claim C5 counterexample: importing the overlapping list
[{0,20},{15,30}] succeeds, and afterwards the persisted record and the
export both carry [{0,30},{15,30}] — the list widened in place by the
recomputation's merge but still overlapping — so the collections written to
persistence and exposed by export are not normalized. -/
theorem claim_C5_counterexample :
    (importProgressData (mkTracker "v" 100 none)
        (some ⟨"v", some [⟨0, 20⟩, ⟨15, 30⟩], some 0⟩)).1 = true ∧
    (importProgressData (mkTracker "v" 100 none)
        (some ⟨"v", some [⟨0, 20⟩, ⟨15, 30⟩], some 0⟩)).2.storage
      = some ⟨[⟨0, 30⟩, ⟨15, 30⟩], 0⟩ ∧
    (exportProgressData (importProgressData (mkTracker "v" 100 none)
        (some ⟨"v", some [⟨0, 20⟩, ⟨15, 30⟩], some 0⟩)).2).intervals
      = [⟨0, 30⟩, ⟨15, 30⟩] ∧
    ¬ Normalized [⟨0, 30⟩, ⟨15, 30⟩] := by
  refine ⟨by decide, by decide, by decide, ?_⟩
  rintro ⟨-, hg⟩
  rw [Gapped, List.chain'_cons] at hg
  exact absurd (show (30 : ℚ) < 15 from hg.1) (by norm_num)

/-- Claim C5 (amended): the intervals exposed through getProgressData are
always normalized, and whenever stopTracking writes to persistence the
written intervals are normalized; importProgressData however persists and
exports the imported list subject only to the merge's in-place
end-widening, not normalization, so collections that pass through
an import can remain unnormalized. -/
theorem claim_C5_normalization (s : TrackerState) (p : ℚ) :
    Normalized (getProgressData s).intervals ∧
    ((stopTracking s p).storage = s.storage ∨
      ∃ q : ℚ, (stopTracking s p).storage
        = some ⟨(stopTracking s p).watchedIntervals, q⟩ ∧
        Normalized (stopTracking s p).watchedIntervals) := by
  constructor
  · exact ⟨mergeIntervals_sortedStarts _, mergeIntervals_gapped _⟩
  · by_cases ht : s.isTracking = true
    · by_cases he : s.trackingStartTime = p
      · rw [stopTracking_anchor_eq he]
        exact Or.inl rfl
      · by_cases habs : 1 ≤ |s.trackingStartTime - p|
        · have hw : (stopTracking s p).watchedIntervals
              = mergeIntervals (s.watchedIntervals ++
                [⟨min s.trackingStartTime p, max s.trackingStartTime p⟩]) := by
            rw [stopTracking_commit ht habs]
            simp
          refine Or.inr ⟨p, ?_, ?_⟩
          · rw [stopTracking_commit ht habs]
            simp
          · rw [hw]
            exact ⟨mergeIntervals_sortedStarts _, mergeIntervals_gapped _⟩
        · rw [stopTracking_below_threshold ht he habs]
          exact Or.inl rfl
    · rw [stopTracking_not_tracking p ht]
      exact Or.inl rfl

/-- Claim C2: for inputs whose intervals satisfy start ≤ end, mergeIntervals
returns a list sorted ascending by start in which every interval's start is
strictly greater than the previous interval's end, covering the same union
of points as the input; merge of the empty list is empty; and the two spec
examples hold. -/
theorem claim_C2_merge_spec :
    (∀ l : List WatchedInterval, (∀ i ∈ l, i.start ≤ i.«end») →
      SortedStarts (mergeIntervals l) ∧
      (mergeIntervals l).Chain' (fun a b => a.«end» < b.start) ∧
      (∀ x : ℚ, covers x (mergeIntervals l) ↔ covers x l)) ∧
    mergeIntervals [] = [] ∧
    mergeIntervals [⟨0, 20⟩, ⟨15, 30⟩] = [⟨0, 30⟩] ∧
    mergeIntervals [⟨0, 20⟩, ⟨25, 30⟩] = [⟨0, 20⟩, ⟨25, 30⟩] :=
  ⟨fun l _ => ⟨mergeIntervals_sortedStarts l, mergeIntervals_gapped l,
    mergeIntervals_covers l⟩, rfl, by decide, by decide⟩

/-- Witness for claim C2 at the concrete input [{0,20},{15,30}]. -/
theorem claim_C2_merge_spec_witness :
    SortedStarts (mergeIntervals [⟨0, 20⟩, ⟨15, 30⟩]) ∧
    (mergeIntervals [⟨0, 20⟩, ⟨15, 30⟩]).Chain' (fun a b => a.«end» < b.start) ∧
    (covers 25 (mergeIntervals [⟨0, 20⟩, ⟨15, 30⟩]) ↔
      covers 25 [⟨0, 20⟩, ⟨15, 30⟩]) := by
  obtain ⟨h1, h2, h3⟩ := claim_C2_merge_spec.1 [⟨0, 20⟩, ⟨15, 30⟩] (by decide)
  exact ⟨h1, h2, h3 25⟩

/-- Claim C7 counterexample: without the data-model invariant start ≤ end,
merge is not invariant under reordering: the two-element list with an
inverted interval {0,-1} next to {0,5} merges differently from its
reversal, because the stable sort leaves equal starts in input order and
the inverted end suppresses coalescing in one order only. -/
theorem claim_C7_counterexample :
    List.Perm [(⟨0, -1⟩ : WatchedInterval), ⟨0, 5⟩] [⟨0, 5⟩, ⟨0, -1⟩] ∧
    mergeIntervals [(⟨0, -1⟩ : WatchedInterval), ⟨0, 5⟩]
      ≠ mergeIntervals [⟨0, 5⟩, ⟨0, -1⟩] := by
  constructor
  · exact List.Perm.swap _ _ _
  · intro h
    have h1 : mergeIntervals [(⟨0, -1⟩ : WatchedInterval), ⟨0, 5⟩]
        = [⟨0, -1⟩, ⟨0, 5⟩] := by decide
    have h2 : mergeIntervals [(⟨0, 5⟩ : WatchedInterval), ⟨0, -1⟩] = [⟨0, 5⟩] := by decide
    rw [h1, h2] at h
    exact absurd h (by decide)

/-- Claim C7 (amended): mergeIntervals is idempotent on every input list;
and for lists of intervals satisfying the data-model invariant start ≤ end,
the output depends only on the set of member intervals, hence is identical
under reordering and under adding duplicate entries. -/
theorem claim_C7_idem_order_invariance :
    (∀ X : List WatchedInterval,
      mergeIntervals (mergeIntervals X) = mergeIntervals X) ∧
    (∀ X Y : List WatchedInterval, (∀ i ∈ X, i.start ≤ i.«end») →
      (∀ i ∈ X, i ∈ Y) → (∀ i ∈ Y, i ∈ X) →
      mergeIntervals X = mergeIntervals Y) := by
  refine ⟨mergeIntervals_idem, fun X Y hWF hXY hYX => ?_⟩
  have hYWF : AllWF Y := fun i hi => hWF i (hYX i hi)
  apply mergeIntervals_eq_of_covers hWF hYWF
  intro x
  constructor
  · rintro ⟨i, hi, hx⟩
    exact ⟨i, hXY i hi, hx⟩
  · rintro ⟨i, hi, hx⟩
    exact ⟨i, hYX i hi, hx⟩

/-- Witness for claim C7 at a reordering with a duplicate added. -/
theorem claim_C7_idem_order_invariance_witness :
    mergeIntervals [(⟨0, 20⟩ : WatchedInterval), ⟨25, 30⟩]
      = mergeIntervals [⟨25, 30⟩, ⟨0, 20⟩, ⟨25, 30⟩] :=
  claim_C7_idem_order_invariance.2 [⟨0, 20⟩, ⟨25, 30⟩] [⟨25, 30⟩, ⟨0, 20⟩, ⟨25, 30⟩]
    (by decide) (by decide) (by decide)

/-- Claim C4: with duration > 0 the recomputed totalProgress equals
min(100, 100·(sum of merged interval lengths)/duration); with duration zero
the recomputation leaves totalProgress unchanged (no division, no reset);
and the spec example: duration 100 with intervals [{0,30},{50,60}] yields
40. -/
theorem claim_C4_progress_formula :
    (∀ s : TrackerState, 0 < s.duration →
      (calculateProgress s).totalProgress
        = min 100 (100 * calculateUniqueWatchedTime s / s.duration)) ∧
    (∀ s : TrackerState, s.duration = 0 →
      (calculateProgress s).totalProgress = s.totalProgress) ∧
    (∀ s : TrackerState, s.duration = 100 → s.watchedIntervals = [⟨0, 30⟩, ⟨50, 60⟩] →
      (calculateProgress s).totalProgress = 40) := by
  refine ⟨fun s hd => ?_, fun s hd => ?_, fun s hd hw => ?_⟩
  · rw [calculateProgress_totalProgress_pos hd, min_comm]
    congr 1
    ring
  · exact calculateProgress_totalProgress_of_not_pos (by rw [hd]; exact lt_irrefl 0)
  · have hcu : calculateUniqueWatchedTime s = 40 := by
      have hmerge : mergeIntervals [(⟨0, 30⟩ : WatchedInterval), ⟨50, 60⟩]
          = [⟨0, 30⟩, ⟨50, 60⟩] := by decide
      rw [calculateUniqueWatchedTime, hw, hmerge, sumLen_cons, sumLen_cons]
      norm_num [sumLen]
    rw [calculateProgress_totalProgress_pos (by rw [hd]; norm_num), hcu, hd]
    norm_num

/-- Witness for claim C4 at concrete states: the spec example state and a
zero-duration state whose progress 7 is preserved. -/
theorem claim_C4_progress_formula_witness :
    (calculateProgress ⟨"v", [⟨0, 30⟩, ⟨50, 60⟩], 0, 100, 0, false, 0, none, []⟩).totalProgress
      = min 100 (100 * calculateUniqueWatchedTime
          ⟨"v", [⟨0, 30⟩, ⟨50, 60⟩], 0, 100, 0, false, 0, none, []⟩ / 100) ∧
    (calculateProgress ⟨"v", [], 0, 0, 0, false, 7, none, []⟩).totalProgress = 7 ∧
    (calculateProgress (⟨"v", [⟨0, 30⟩, ⟨50, 60⟩], 0, 100, 0, false, 0, none, []⟩ :
        TrackerState)).totalProgress = 40 := by
  refine ⟨?_, ?_, ?_⟩
  · exact claim_C4_progress_formula.1 _ (by norm_num)
  · exact claim_C4_progress_formula.2.1 _ rfl
  · exact claim_C4_progress_formula.2.2 _ rfl rfl

theorem watchedTime_commit_mono {l : List WatchedInterval} {i : WatchedInterval}
    (hWF : AllWF l) (hi : i.start ≤ i.«end») :
    sumLen (mergeIntervals l) ≤ sumLen (mergeIntervals (l ++ [i])) := by
  have hWF' : AllWF (l ++ [i]) := by
    intro j hj
    rcases List.mem_append.mp hj with h | h
    · exact hWF j h
    · rw [List.mem_singleton] at h
      rw [h]
      exact hi
  refine sumLen_mono_of_covers _ _ (mergeIntervals_gapped l) (mergeIntervals_WF hWF)
    (mergeIntervals_gapped _) (mergeIntervals_WF hWF') ?_
  intro x hx
  rw [mergeIntervals_covers] at hx ⊢
  obtain ⟨j, hj, h⟩ := hx
  exact ⟨j, List.mem_append_left _ hj, h⟩

theorem stopTracking_invariant (s : TrackerState) (p : ℚ)
    (hWF : AllWF s.watchedIntervals) (hd : 0 < s.duration)
    (hcons : s.totalProgress
      ≤ min (calculateUniqueWatchedTime s / s.duration * 100) 100) :
    AllWF (stopTracking s p).watchedIntervals ∧
    (stopTracking s p).duration = s.duration ∧
    s.totalProgress ≤ (stopTracking s p).totalProgress ∧
    (stopTracking s p).totalProgress ≤
      min (calculateUniqueWatchedTime (stopTracking s p)
        / (stopTracking s p).duration * 100) 100 := by
  by_cases ht : s.isTracking = true
  · by_cases he : s.trackingStartTime = p
    · rw [stopTracking_anchor_eq he]
      exact ⟨hWF, rfl, le_refl _, hcons⟩
    · by_cases habs : 1 ≤ |s.trackingStartTime - p|
      · set i : WatchedInterval :=
          ⟨min s.trackingStartTime p, max s.trackingStartTime p⟩ with hidef
        have hiWF : i.start ≤ i.«end» := min_le_max
        have hWF' : AllWF (s.watchedIntervals ++ [i]) := by
          intro j hj
          rcases List.mem_append.mp hj with h | h
          · exact hWF j h
          · rw [List.mem_singleton] at h
            rw [h]
            exact hiWF
        have hw : (stopTracking s p).watchedIntervals
            = mergeIntervals (s.watchedIntervals ++ [i]) := by
          rw [stopTracking_commit ht habs]
          simp [hidef]
        have hdur2 : (stopTracking s p).duration = s.duration := by
          rw [stopTracking_commit ht habs]
          simp
        have hcu : calculateUniqueWatchedTime (stopTracking s p)
            = sumLen (mergeIntervals (s.watchedIntervals ++ [i])) := by
          rw [calculateUniqueWatchedTime, hw, mergeIntervals_idem]
        have htp : (stopTracking s p).totalProgress
            = min (sumLen (mergeIntervals (s.watchedIntervals ++ [i]))
                / s.duration * 100) 100 := by
          rw [stopTracking_commit ht habs]
          show (calculateProgress _).totalProgress = _
          rw [calculateProgress_totalProgress_pos (by simpa using hd)]
          rw [calculateUniqueWatchedTime]
          simp only [TrackerState.watchedIntervals, TrackerState.duration]
          rw [mergeIntervals_idem, hidef]
        have hmono : sumLen (mergeIntervals s.watchedIntervals)
            ≤ sumLen (mergeIntervals (s.watchedIntervals ++ [i])) :=
          watchedTime_commit_mono hWF hiWF
        refine ⟨by rw [hw]; exact mergeIntervals_WF hWF', hdur2, ?_, ?_⟩
        · rw [htp]
          refine le_trans hcons (min_le_min ?_ (le_refl 100))
          apply mul_le_mul_of_nonneg_right _ (by norm_num : (0 : ℚ) ≤ 100)
          rw [div_le_div_iff_of_pos_right hd]
          exact hmono
        · rw [htp, hcu, hdur2]
      · rw [stopTracking_below_threshold ht he habs]
        exact ⟨hWF, rfl, le_refl _, hcons⟩
  · rw [stopTracking_not_tracking p ht]
    exact ⟨hWF, rfl, le_refl _, hcons⟩

theorem handleSeek_core (s : TrackerState) (p : ℚ) :
    (handleSeek s p).watchedIntervals
      = (if s.isTracking = true then stopTracking s s.lastPosition else s).watchedIntervals ∧
    (handleSeek s p).duration
      = (if s.isTracking = true then stopTracking s s.lastPosition else s).duration ∧
    (handleSeek s p).totalProgress
      = (if s.isTracking = true then stopTracking s s.lastPosition else s).totalProgress := by
  rw [handleSeek]
  by_cases ht : s.isTracking = true
  · rw [if_pos ht]
    split <;> exact ⟨rfl, rfl, rfl⟩
  · rw [if_neg ht]
    split <;> exact ⟨rfl, rfl, rfl⟩

theorem playOp_invariant (s : TrackerState) (op : Op) (hop : isPlaybackOp op = true)
    (hWF : AllWF s.watchedIntervals) (hd : 0 < s.duration)
    (hcons : s.totalProgress
      ≤ min (calculateUniqueWatchedTime s / s.duration * 100) 100) :
    AllWF (applyOp s op).watchedIntervals ∧
    (applyOp s op).duration = s.duration ∧
    s.totalProgress ≤ (applyOp s op).totalProgress ∧
    (applyOp s op).totalProgress ≤
      min (calculateUniqueWatchedTime (applyOp s op)
        / (applyOp s op).duration * 100) 100 := by
  cases op with
  | startT p =>
    show AllWF (startTracking s p).watchedIntervals ∧
      (startTracking s p).duration = s.duration ∧
      s.totalProgress ≤ (startTracking s p).totalProgress ∧
      (startTracking s p).totalProgress ≤
        min (calculateUniqueWatchedTime (startTracking s p)
          / (startTracking s p).duration * 100) 100
    rw [startTracking]
    split <;> exact ⟨hWF, rfl, le_refl _, hcons⟩
  | stopT p => exact stopTracking_invariant s p hWF hd hcons
  | seek p =>
    obtain ⟨h1, h2, h3⟩ := handleSeek_core s p
    show AllWF (handleSeek s p).watchedIntervals ∧
      (handleSeek s p).duration = s.duration ∧
      s.totalProgress ≤ (handleSeek s p).totalProgress ∧
      (handleSeek s p).totalProgress ≤
        min (calculateUniqueWatchedTime (handleSeek s p)
          / (handleSeek s p).duration * 100) 100
    rw [calculateUniqueWatchedTime, h1, h2, h3, ← calculateUniqueWatchedTime]
    by_cases ht : s.isTracking = true
    · rw [if_pos ht]
      exact stopTracking_invariant s s.lastPosition hWF hd hcons
    · rw [if_neg ht]
      exact ⟨hWF, rfl, le_refl _, hcons⟩
  | updatePos p =>
    have hcu : calculateUniqueWatchedTime (updatePosition s p)
        = calculateUniqueWatchedTime s := by
      show sumLen (mergeIntervals (mergeMutate s.watchedIntervals))
        = sumLen (mergeIntervals s.watchedIntervals)
      rw [mergeIntervals_mergeMutate hWF]
    show AllWF (updatePosition s p).watchedIntervals ∧
      (updatePosition s p).duration = s.duration ∧
      s.totalProgress ≤ (updatePosition s p).totalProgress ∧
      (updatePosition s p).totalProgress ≤
        min (calculateUniqueWatchedTime (updatePosition s p)
          / (updatePosition s p).duration * 100) 100
    refine ⟨?_, rfl, le_refl _, ?_⟩
    · show AllWF (mergeMutate s.watchedIntervals)
      exact mergeMutate_WF hWF
    · rw [hcu]
      exact hcons
  | setDur d => exact absurd hop (by simp [isPlaybackOp])
  | resetOp => exact absurd hop (by simp [isPlaybackOp])
  | importOp parsed => exact absurd hop (by simp [isPlaybackOp])

theorem runOps_mono (ops : List Op) :
    ∀ s : TrackerState, (∀ op ∈ ops, isPlaybackOp op = true) →
      AllWF s.watchedIntervals → 0 < s.duration →
      s.totalProgress ≤ min (calculateUniqueWatchedTime s / s.duration * 100) 100 →
      s.totalProgress ≤ (runOps s ops).totalProgress := by
  induction ops with
  | nil => intro s _ _ _ _; exact le_refl _
  | cons op rest ih =>
    intro s hops hWF hd hcons
    obtain ⟨h1, h2, h3, h4⟩ :=
      playOp_invariant s op (hops op (by simp)) hWF hd hcons
    have hstep := ih (applyOp s op) (fun o ho => hops o (by simp [ho])) h1
      (by rw [h2]; exact hd) h4
    exact le_trans h3 hstep

theorem calculateProgress_le_100 (s : TrackerState) (h : s.totalProgress ≤ 100) :
    (calculateProgress s).totalProgress ≤ 100 := by
  rw [calculateProgress]
  split
  · exact min_le_right _ _
  · exact h

theorem stopTracking_le_100 (s : TrackerState) (p : ℚ)
    (h : s.totalProgress ≤ 100) : (stopTracking s p).totalProgress ≤ 100 := by
  by_cases ht : s.isTracking = true
  · by_cases he : s.trackingStartTime = p
    · rw [stopTracking_anchor_eq he]; exact h
    · by_cases habs : 1 ≤ |s.trackingStartTime - p|
      · rw [stopTracking_commit ht habs]
        show (calculateProgress _).totalProgress ≤ 100
        exact calculateProgress_le_100 _ h
      · rw [stopTracking_below_threshold ht he habs]; exact h
  · rw [stopTracking_not_tracking p ht]; exact h

theorem totalProgress_le_100_step (s : TrackerState) (op : Op)
    (h : s.totalProgress ≤ 100) : (applyOp s op).totalProgress ≤ 100 := by
  cases op with
  | startT p =>
    show (startTracking s p).totalProgress ≤ 100
    rw [startTracking]
    split <;> exact h
  | stopT p => exact stopTracking_le_100 s p h
  | seek p =>
    show (handleSeek s p).totalProgress ≤ 100
    rw [(handleSeek_core s p).2.2]
    by_cases ht : s.isTracking = true
    · rw [if_pos ht]
      exact stopTracking_le_100 s s.lastPosition h
    · rw [if_neg ht]; exact h
  | updatePos p => exact h
  | setDur d =>
    show (setDuration s d).totalProgress ≤ 100
    exact calculateProgress_le_100 _ h
  | resetOp =>
    show (0 : ℚ) ≤ 100
    norm_num
  | importOp parsed =>
    show (importProgressData s parsed).2.totalProgress ≤ 100
    cases parsed with
    | none => exact h
    | some data =>
      rw [importProgressData]
      split
      · show (calculateProgress _).totalProgress ≤ 100
        exact calculateProgress_le_100 _ h
      · exact h

theorem reachable_totalProgress_le_100 {s : TrackerState} (h : Reachable s) :
    s.totalProgress ≤ 100 := by
  induction h with
  | init vid dur st =>
    rw [mkTracker, loadSavedProgress]
    cases st with
    | none =>
      show (0 : ℚ) ≤ 100
      norm_num
    | some d =>
      apply calculateProgress_le_100
      show (0 : ℚ) ≤ 100
      norm_num
  | step _ op ih => exact totalProgress_le_100_step _ op ih

/-- Claim C8: for a fixed positive duration, along any sequence of playback
operations (the operations through which intervals are committed —
stopTracking and the seek-induced stop), totalProgress never decreases,
starting from any state whose intervals are well-formed and whose
totalProgress is consistent with its interval set (as holds for any freshly
constructed tracker); and in every reachable state totalProgress is at most
100. -/
theorem claim_C8_monotonicity :
    (∀ (s : TrackerState) (ops : List Op),
      (∀ op ∈ ops, isPlaybackOp op = true) →
      (∀ i ∈ s.watchedIntervals, i.start ≤ i.«end») →
      0 < s.duration →
      s.totalProgress ≤ min (calculateUniqueWatchedTime s / s.duration * 100) 100 →
      s.totalProgress ≤ (runOps s ops).totalProgress) ∧
    (∀ s : TrackerState, Reachable s → s.totalProgress ≤ 100) :=
  ⟨fun s ops h1 h2 h3 h4 => runOps_mono ops s h1 h2 h3 h4,
    fun _ h => reachable_totalProgress_le_100 h⟩

/-- Witness for claim C8: a fresh tracker of duration 100 run through a
play/stop/seek/play/stop sequence never sees its progress decrease below the
starting value, and its starting state is within the 100 bound. -/
theorem claim_C8_monotonicity_witness :
    (mkTracker "v" 100 none).totalProgress ≤
      (runOps (mkTracker "v" 100 none)
        [Op.startT 0, Op.stopT 10, Op.seek 50, Op.startT 50, Op.stopT 60]).totalProgress ∧
    (mkTracker "v" 100 none).totalProgress ≤ 100 := by
  constructor
  · apply claim_C8_monotonicity.1
    · decide
    · intro i hi
      exact absurd hi (List.not_mem_nil i)
    · show (0 : ℚ) < 100
      norm_num
    · show (0 : ℚ) ≤ min (calculateUniqueWatchedTime (mkTracker "v" 100 none) / 100 * 100) 100
      have h0 : calculateUniqueWatchedTime (mkTracker "v" 100 none) = 0 := rfl
      rw [h0]
      norm_num
  · exact claim_C8_monotonicity.2 _ (Reachable.init "v" 100 none)

end TrueView
